import Mathlib

/-!
Shallow embedding of `clustering_system/clustering/igmm/DdCrpClustering.py`,
the distance-dependent CRP clustering core.

Numeric quantities (timestamps, log-probabilities, marginal likelihoods) are
modelled over `ℚ`; the transcendental functions (`math.log`, `exp`, the decay
kernel) and the external mixture model's marginal likelihood are abstract
function parameters.  The customer-assignment array `c` stores `Option ℕ`,
where `none` models the Python sentinel value `-1`.  The external mixture
model is represented by its cluster-id array `z` together with `merge` /
`split` operations modelled from their contracts in the specification
(the mixture implementation itself is an external collaborator).
-/

namespace DdCrp

open Relation

/-- Mutable state of a `DdCrpClustering` instance: the directed assignment
array `c`, the undirected link graph `g`, the external mixture's cluster-id
array `z`, timestamps, the cluster count `K`, the reusable-cluster-number
queue `pool`, the marginal-likelihood cache, the customer count `N` and the
capacity `Kmax`. -/
structure DdState where
  ids : List ℕ
  c : List (Option ℕ)
  g : List (Finset ℕ)
  z : List ℕ
  timestamps : List ℚ
  K : ℤ
  pool : List ℕ
  cache : List (Finset ℕ × ℚ)
  N : ℕ
  Kmax : ℕ
  deriving DecidableEq

/-- `self.c[j]` (with `none` for the `-1` sentinel). -/
def cAt (s : DdState) (j : ℕ) : Option ℕ := s.c.getD j none

/-- `self.c[j]` read as an index (meaningful only when the entry is assigned). -/
def cVal (s : DdState) (j : ℕ) : ℕ := (cAt s j).getD 0

/-- `self.g[j]`, the undirected adjacency set of customer `j`. -/
def gAt (s : DdState) (j : ℕ) : Finset ℕ := s.g.getD j ∅

/-- `self.mixture.z[j]`, the cluster id of customer `j`. -/
def zAt (s : DdState) (j : ℕ) : ℕ := s.z.getD j 0

/-- `self.timestamps[j]`. -/
def tsAt (s : DdState) (j : ℕ) : ℚ := s.timestamps.getD j 0

/-- Modelled from the spec: `merge(survivingId, absorbedId)` of the external
mixture model (spec §6) moves all members of `absorbedId` into
`survivingId`; on the cluster-id array this replaces every occurrence of
the absorbed id by the surviving id.  (The mixture implementation is not
part of the analysed source.) -/
def mixtureMerge (z : List ℕ) (surviving absorbed : ℕ) : List ℕ :=
  z.map (fun x => if x = absorbed then surviving else x)

/-- Modelled from the spec: `split(oldId, newId, movedMembers)` of the
external mixture model (spec §6) moves exactly `movedMembers` to the fresh
id `newId`; on the cluster-id array every index in `movedMembers` is
relabelled to `newId`.  (The mixture implementation is not part of the
analysed source.) -/
def mixtureSplit (z : List ℕ) (_oldId newId : ℕ) (moved : Finset ℕ) : List ℕ :=
  (List.range z.length).map (fun j => if j ∈ moved then newId else z.getD j 0)

/-- Modelled from the spec: `_get_new_cluster_number` of the Gibbs base class
draws the next id from the reusable-id pool (a FIFO queue of small integers,
spec §3/§9); returns the drawn id and the remaining pool. -/
def poolDraw (pool : List ℕ) : ℕ × List ℕ := (pool.headD 0, pool.tail)

/-- The `while c not in visited` loop of `_is_table_split`, with explicit
fuel (the Python loop terminates because `visited` grows each iteration;
`isTableSplit` supplies fuel `N + 1`, shown sufficient below). -/
def splitLoop (cv : ℕ → ℕ) (i : ℕ) : ℕ → Finset ℕ → ℕ → Bool
  | 0, _, _ => true
  | fuel + 1, visited, cur =>
      if cur ∈ visited then true
      else if cv cur = i then false
      else splitLoop cv i fuel (insert cur visited) (cv cur)

/-- `_is_table_split(i)`: does removal of `c_i` split one table into two?
Returns `false` if `c_i` lies on a cycle, `true` otherwise. -/
def isTableSplit (s : DdState) (i : ℕ) : Bool :=
  let cv := fun j => cVal s j
  if cv i = i then false
  else if cv (cv i) = i then false
  else splitLoop cv i (s.N + 1) {i} (cv i)

/-- The stack-based traversal loop of `_get_people_next_to`, with explicit
fuel (the Python loop terminates because `visited` grows; `peopleNextTo`
supplies sufficient fuel, shown below). -/
def dfs (g : List (Finset ℕ)) : ℕ → Finset ℕ → List ℕ → Finset ℕ
  | 0, visited, _ => visited
  | _ + 1, visited, [] => visited
  | fuel + 1, visited, x :: stack =>
      if x ∈ visited then dfs g fuel visited stack
      else dfs g fuel (insert x visited) (stack ++ (g.getD x ∅ \ insert x visited).sort (· ≤ ·))

/-- Fuel that is always sufficient for `dfs` on a graph with `n` vertices. -/
def dfsFuel (n : ℕ) : ℕ := n * n + n + 2

/-- `_get_people_next_to(c)`: indices of customers transitively sitting next
to customer `c`, computed by traversing the undirected graph `g` from `c`. -/
def peopleNextTo (g : List (Finset ℕ)) (c : ℕ) : Finset ℕ :=
  dfs g (dfsFuel g.length) ∅ [c]

/-- The link-graph update of `_add_assignment`:
`self.g[i].add(c); self.g[c].add(i)`. -/
def addLinkGraph (g : List (Finset ℕ)) (i c : ℕ) : List (Finset ℕ) :=
  let g₁ := g.set i (insert c (g.getD i ∅))
  g₁.set c (insert i (g₁.getD c ∅))

/-- The link-graph update of `_remove_assignment` (`c = self.c[i]`,
`cc = self.c[c]`): remove the self loop on a self assignment, leave `g`
unchanged on a mutual 2-cycle, otherwise delete the edge on both sides. -/
def removeLinkGraph (g : List (Finset ℕ)) (i c cc : ℕ) : List (Finset ℕ) :=
  if c = i then g.set i ((g.getD i ∅).erase i)
  else if cc = i then g
  else
    let gA := g.set i ((g.getD i ∅).erase c)
    gA.set c ((gA.getD c ∅).erase i)

/-- `_add_assignment(i, c)`: merge tables if `i` and `c` sit at different
tables (the larger cluster number is absorbed into the smaller one and
returned to the pool), then set `c[i] = c` and add the undirected edge. -/
def addAssignment (s : DdState) (i c : ℕ) : DdState :=
  let s₁ : DdState :=
    if zAt s i ≠ zAt s c then
      let tableToJoin := if zAt s i > zAt s c then zAt s i else zAt s c
      let tableNo := if zAt s i > zAt s c then zAt s c else zAt s i
      { s with
          pool := s.pool ++ [tableToJoin],
          K := s.K - 1,
          z := mixtureMerge s.z tableNo tableToJoin }
    else s
  { s₁ with c := s₁.c.set i (some c), g := addLinkGraph s₁.g i c }

/-- `_remove_assignment(i)`: evaluate the split check on the pre-removal
state, update the undirected graph (three cases: self link, mutual 2-cycle,
general), clear `c[i]`, and if a split was detected move the component of
`i` in the mutated graph to a fresh cluster number drawn from the pool. -/
def removeAssignment (s : DdState) (i : ℕ) : DdState :=
  let isSplit := isTableSplit s i
  let s₁ : DdState :=
    { s with g := removeLinkGraph s.g i (cVal s i) (cVal s (cVal s i)),
             c := s.c.set i none }
  if isSplit then
    let drawn := poolDraw s₁.pool
    { s₁ with
        z := mixtureSplit s₁.z (zAt s₁ i) drawn.1 (peopleNextTo s₁.g i),
        pool := drawn.2,
        K := s₁.K + 1 }
  else s₁

/-- Lookup in the marginal-likelihood cache (a Python dict keyed by frozen
customer-index sets, modelled as an association list). -/
def cacheLookup (cache : List (Finset ℕ × ℚ)) (members : Finset ℕ) : Option ℚ :=
  match cache with
  | [] => none
  | e :: rest => if e.1 = members then some e.2 else cacheLookup rest members

/-- The `if members in self.likelihood_cache` pattern of `_likelihood_under_z`:
return the cached value, or compute it via the external marginal-likelihood
function `marg` and store it. -/
def cacheGet (marg : Finset ℕ → ℚ) (cache : List (Finset ℕ × ℚ)) (members : Finset ℕ) :
    ℚ × List (Finset ℕ × ℚ) :=
  match cacheLookup cache members with
  | some v => (v, cache)
  | none => (marg members, (members, marg members) :: cache)

/-- `_likelihood_under_z(i, c)`: `L(k ∪ l) - L(k) - L(l)` for the tables `k`
of `i` and `l` of `c`, with all three values fetched through the cache;
returns the value together with the updated cache. -/
def likelihoodUnderZ (marg : Finset ℕ → ℚ) (s : DdState) (i c : ℕ) :
    ℚ × List (Finset ℕ × ℚ) :=
  let tableK := peopleNextTo s.g i
  let tableL := peopleNextTo s.g c
  let tableKL := tableK ∪ tableL
  let rK := cacheGet marg s.cache tableK
  let rL := cacheGet marg rK.2 tableL
  let rKL := cacheGet marg rL.2 tableKL
  (rKL.1 - rK.1 - rL.1, rKL.2)

/-- Python's `math.log`, which raises `ValueError` on a non-positive
argument: modelled as `none` in that case, with `flog` as the abstract
logarithm on positive rationals. -/
def mathLog (flog : ℚ → ℚ) (x : ℚ) : Option ℚ :=
  if 0 < x then some (flog x) else none

/-- `window_decay(d, a)`: `1` if `d < a` else `0`. -/
def window_decay (d a : ℚ) : ℚ := if d < a then 1 else 0

/-- `_assignment_probability(i, c)`: log probability of assigning customer
`i` to customer `c` (value component; `flog` is the abstract logarithm,
`fdec` the decay kernel, `alpha` the self-assignment hyperparameter). -/
def assignmentProbability (flog fdec : ℚ → ℚ) (alpha : ℚ) (marg : Finset ℕ → ℚ)
    (s : DdState) (i c : ℕ) : ℚ :=
  if i = c then flog alpha
  else
    let d := |tsAt s i - tsAt s c|
    if zAt s i = zAt s c then flog (fdec d)
    else flog (fdec d) + (likelihoodUnderZ marg s i c).1

/-- `_assignment_probability(i, c)` with Python's `math.log` exception
behaviour made explicit: the result is `none` exactly when `math.log` is
reached with a non-positive argument (a raised `ValueError`). -/
def assignmentProbabilityChecked (flog fdec : ℚ → ℚ) (alpha : ℚ) (marg : Finset ℕ → ℚ)
    (s : DdState) (i c : ℕ) : Option ℚ :=
  if i = c then mathLog flog alpha
  else
    let d := |tsAt s i - tsAt s c|
    if zAt s i = zAt s c then mathLog flog (fdec d)
    else (mathLog flog (fdec d)).map (fun lw => lw + (likelihoodUnderZ marg s i c).1)

/-- `_get_assignment_probabilities(i)`: the list of
`(candidate, log probability)` pairs for every candidate in `range(N)`. -/
def getAssignmentProbabilities (flog fdec : ℚ → ℚ) (alpha : ℚ) (marg : Finset ℕ → ℚ)
    (s : DdState) (i : ℕ) : List (ℕ × ℚ) :=
  (List.range s.N).map (fun c => (c, assignmentProbability flog fdec alpha marg s i c))

/-- Maximum of a list of rationals (the shift used by `scipy`'s
`logsumexp`). -/
def maxList (l : List ℚ) : ℚ := l.foldr max (l.headD 0)

/-- `Σ exp(x - max)` over a list of log-weights (`fexp` is the abstract
exponential). -/
def shiftedExpSum (fexp : ℚ → ℚ) (l : List ℚ) : ℚ :=
  (l.map (fun x => fexp (x - maxList l))).sum

/-- `scipy.misc.logsumexp`: `max + ln(Σ exp(x - max))`, the max-shifted
log-sum-exp (`fln` is the abstract natural logarithm). -/
def logsumexpQ (fexp fln : ℚ → ℚ) (l : List ℚ) : ℚ :=
  maxList l + fln (shiftedExpSum fexp l)

/-- The normalization step of `_sample_document`:
`probabilities = np.exp(probabilities - scipy.misc.logsumexp(probabilities))`
applied to an indexed list of log-weights. -/
def normalizeProbs (fexp fln : ℚ → ℚ) (ps : List (ℕ × ℚ)) : List (ℕ × ℚ) :=
  let lse := logsumexpQ fexp fln (ps.map Prod.snd)
  ps.map (fun p => (p.1, fexp (p.2 - lse)))

/-- The probability vector drawn from in `_sample_document(i)` (steps 2–3 of
the Gibbs step): all candidate log-weights, normalized via log-sum-exp. -/
def sampleStepProbs (fexp fln flog fdec : ℚ → ℚ) (alpha : ℚ) (marg : Finset ℕ → ℚ)
    (s : DdState) (i : ℕ) : List (ℕ × ℚ) :=
  normalizeProbs fexp fln (getAssignmentProbabilities flog fdec alpha marg s i)

/-- One iteration of the `add_documents` loop: append the new customer
self-linked at its own fresh table, and if the customer count now exceeds
`Kmax` immediately remove the self link and re-assign to customer `r`
(the value drawn by `random.randint(0, i)`, supplied as an oracle
parameter). -/
def addDocument (s : DdState) (docId : ℕ) (docTs : ℚ) (r : ℕ) : DdState :=
  let i := s.N
  let drawn := poolDraw s.pool
  let s₁ : DdState :=
    { s with
        ids := s.ids ++ [docId],
        c := s.c ++ [some i],
        g := s.g ++ [{i}],
        z := s.z ++ [drawn.1],
        pool := drawn.2,
        N := s.N + 1,
        K := s.K + 1 }
  let s₂ := if s₁.N > s₁.Kmax then addAssignment (removeAssignment s₁ i) i r else s₁
  { s₂ with timestamps := s₂.timestamps ++ [docTs / (60 * 60 * 24)] }

/-- Adjacency in the undirected link graph. -/
def Adj (g : List (Finset ℕ)) (a b : ℕ) : Prop := b ∈ g.getD a ∅

/-- Connectivity in the undirected link graph. -/
def Reach (g : List (Finset ℕ)) (a b : ℕ) : Prop := Relation.ReflTransGen (Adj g) a b

/-- The three growing arrays have length `N`. -/
def sizesOK (s : DdState) : Prop :=
  s.c.length = s.N ∧ s.g.length = s.N ∧ s.z.length = s.N

/-- Every active assignment points inside `[0, N)`. -/
def cBounded (s : DdState) : Prop := ∀ j v, cAt s j = some v → v < s.N

/-- `g` is exactly the symmetrization of the assignment array: `k ∈ g[j]`
iff `c[j] = k` or `c[k] = j`. -/
def gsymOK (s : DdState) : Prop :=
  ∀ j k, k ∈ gAt s j ↔ (cAt s j = some k ∨ cAt s k = some j)

/-- Pool ids are pairwise distinct and not used by any customer. -/
def poolFresh (s : DdState) : Prop :=
  s.pool.Nodup ∧ ∀ p ∈ s.pool, ∀ j < s.N, zAt s j ≠ p

/-- The claimed invariant: connected components of the undirected link graph
coincide with the partition induced by the mixture's cluster-id array. -/
def componentsMatchZ (s : DdState) : Prop :=
  ∀ j < s.N, ∀ k < s.N, (Reach s.g j k ↔ zAt s j = zAt s k)

/-- Full inductive invariant used to prove `componentsMatchZ` preservation. -/
def Inv (s : DdState) : Prop :=
  sizesOK s ∧ cBounded s ∧ gsymOK s ∧ poolFresh s ∧ componentsMatchZ s

/-- Every customer currently has an active link (the state on which
`_remove_assignment` is invoked). -/
def FullyAssigned (s : DdState) : Prop :=
  ∀ j < s.N, cAt s j = some (cVal s j)

/-- Concrete two-customer state with an unassigned customer 1 sitting at a
table of its own (used to exercise `addAssignment`). -/
def exA : DdState :=
  { ids := [0, 1], c := [some 0, none], g := [{0}, ∅], z := [0, 1],
    timestamps := [0, 0], K := 2, pool := [2, 3], cache := [], N := 2, Kmax := 5 }

/-- Concrete two-customer state forming a mutual pair `0 ↔ 1` (used to
exercise `removeAssignment` and the split check). -/
def exB : DdState :=
  { ids := [0, 1], c := [some 1, some 0], g := [{1}, {0}], z := [0, 0],
    timestamps := [0, 0], K := 1, pool := [1, 2, 3], cache := [], N := 2, Kmax := 5 }

/-- Concrete one-customer state, self-linked (used to exercise ingestion and
removal of a self link). -/
def exC : DdState :=
  { ids := [7], c := [some 0], g := [{0}], z := [0],
    timestamps := [0], K := 1, pool := [1, 2], cache := [], N := 1, Kmax := 3 }

/-- Concrete three-customer state: mutual pair `0 ↔ 1` plus customer 2
linked into it (`c[2] = 1`); removing customer 2's link splits its singleton
off the table. -/
def exD : DdState :=
  { ids := [0, 1, 2], c := [some 1, some 0, some 1], g := [{1}, {0, 2}, {1}],
    z := [0, 0, 0], timestamps := [0, 0, 0], K := 1, pool := [1, 2], cache := [],
    N := 3, Kmax := 9 }

/-- Concrete two-customer state with both customers at the same table but
2 days apart in time (used to exhibit the `math.log(0)` failure of the
window decay kernel). -/
def exE : DdState :=
  { ids := [0, 1], c := [some 0, some 0], g := [{0, 1}, {0}], z := [0, 0],
    timestamps := [0, 2], K := 1, pool := [1], cache := [], N := 2, Kmax := 9 }

/-- Concrete one-customer state with the single customer unassigned (the
state right after a removal, used to exercise `addAssignment`). -/
def exF : DdState :=
  { ids := [5], c := [none], g := [∅], z := [0],
    timestamps := [0], K := 1, pool := [1], cache := [], N := 1, Kmax := 3 }

/-! ### Basic index lemmas -/

lemma getD_set_self {α} {l : List α} {i : ℕ} (v d : α) (h : i < l.length) :
    (l.set i v).getD i d = v := by
  simp [List.getD_eq_getElem?_getD, List.getElem?_set_self h]

lemma getD_set_ne {α} {l : List α} {i j : ℕ} (v d : α) (h : i ≠ j) :
    (l.set i v).getD j d = l.getD j d := by
  simp [List.getD_eq_getElem?_getD, List.getElem?_set_ne h]

lemma getD_of_len_le {α} {l : List α} {j : ℕ} (d : α) (h : l.length ≤ j) :
    l.getD j d = d := by
  simp [List.getD_eq_getElem?_getD, List.getElem?_eq_none h]

lemma getD_concat_length {α} {l : List α} (x d : α) :
    ((l ++ [x]).getD l.length d) = x := by
  simp [List.getD_eq_getElem?_getD, List.getElem?_concat_length]

lemma getD_append_lt {α} {l l' : List α} {j : ℕ} (d : α) (h : j < l.length) :
    ((l ++ l').getD j d) = l.getD j d := by
  simp [List.getD_eq_getElem?_getD, List.getElem?_append_left h]

lemma getD_map_lt {α β} (f : α → β) {l : List α} {j : ℕ} (d : β) (d' : α) (h : j < l.length) :
    ((l.map f).getD j d) = f (l.getD j d') := by
  simp only [List.getD_eq_getElem?_getD, List.getElem?_map]
  rw [List.getElem?_eq_getElem h]
  simp [List.getD_eq_getElem?_getD, List.getElem?_eq_getElem h]

lemma getD_range_map {β} (f : ℕ → β) {n j : ℕ} (d : β) (h : j < n) :
    (((List.range n).map f).getD j d) = f j := by
  rw [getD_map_lt f d 0 (by simpa using h)]
  simp [List.getD_eq_getElem?_getD, List.getElem?_range h]

/-! ### Characterizations of the mutating operations -/

lemma mixtureMerge_length (z : List ℕ) (a b : ℕ) :
    (mixtureMerge z a b).length = z.length := by
  simp [mixtureMerge]

lemma mixtureSplit_length (z : List ℕ) (o n : ℕ) (m : Finset ℕ) :
    (mixtureSplit z o n m).length = z.length := by
  simp [mixtureSplit]

lemma mixtureMerge_getD {z : List ℕ} {j : ℕ} (a b : ℕ) (h : j < z.length) :
    (mixtureMerge z a b).getD j 0 = if z.getD j 0 = b then a else z.getD j 0 := by
  unfold mixtureMerge
  rw [getD_map_lt _ 0 0 h]

lemma mixtureSplit_getD {z : List ℕ} {j : ℕ} (o n : ℕ) (m : Finset ℕ) (h : j < z.length) :
    (mixtureSplit z o n m).getD j 0 = if j ∈ m then n else z.getD j 0 := by
  unfold mixtureSplit
  exact getD_range_map _ 0 h

lemma mem_addLinkGraph {g : List (Finset ℕ)} {i c : ℕ}
    (hi : i < g.length) (hc : c < g.length) (j k : ℕ) :
    k ∈ (addLinkGraph g i c).getD j ∅ ↔
      k ∈ g.getD j ∅ ∨ (j = i ∧ k = c) ∨ (j = c ∧ k = i) := by
  unfold addLinkGraph
  by_cases hjc : j = c
  · subst hjc
    rw [getD_set_self _ _ (by simpa using hc)]
    by_cases hji : j = i
    · subst hji
      rw [getD_set_self _ _ hi]
      simp only [Finset.mem_insert]
      tauto
    · rw [getD_set_ne _ _ (by exact fun h => hji h.symm)]
      simp only [Finset.mem_insert]
      tauto
  · rw [getD_set_ne _ _ (by exact fun h => hjc h.symm)]
    by_cases hji : j = i
    · subst hji
      rw [getD_set_self _ _ hi]
      simp only [Finset.mem_insert]
      tauto
    · rw [getD_set_ne _ _ (by exact fun h => hji h.symm)]
      tauto

lemma mem_removeLinkGraph_self {g : List (Finset ℕ)} {i : ℕ} (j k : ℕ) :
    k ∈ (removeLinkGraph g i i i).getD j ∅ ↔
      k ∈ g.getD j ∅ ∧ ¬(j = i ∧ k = i) := by
  unfold removeLinkGraph
  rw [if_pos rfl]
  by_cases hji : j = i
  · subst hji
    by_cases hlen : j < g.length
    · rw [getD_set_self _ _ hlen]
      simp [Finset.mem_erase]
      tauto
    · rw [getD_of_len_le _ (by rw [List.length_set]; omega), getD_of_len_le _ (by omega)]
      simp
  · rw [getD_set_ne _ _ (by exact fun h => hji h.symm)]
    tauto

lemma mem_removeLinkGraph_mutual {g : List (Finset ℕ)} {i c cc : ℕ}
    (hci : c ≠ i) (hcc : cc = i) (j k : ℕ) :
    k ∈ (removeLinkGraph g i c cc).getD j ∅ ↔ k ∈ g.getD j ∅ := by
  unfold removeLinkGraph
  rw [if_neg hci, if_pos hcc]

lemma mem_removeLinkGraph_general {g : List (Finset ℕ)} {i c cc : ℕ}
    (hci : c ≠ i) (hcc : cc ≠ i) (j k : ℕ) :
    k ∈ (removeLinkGraph g i c cc).getD j ∅ ↔
      k ∈ g.getD j ∅ ∧ ¬((j = i ∧ k = c) ∨ (j = c ∧ k = i)) := by
  unfold removeLinkGraph
  rw [if_neg hci, if_neg hcc]
  by_cases hjc : j = c
  · subst hjc
    by_cases hlen : j < g.length
    · rw [getD_set_self _ _ (by simp only [List.length_set]; omega)]
      rw [getD_set_ne _ _ (by exact fun h => hci h.symm)]
      simp only [Finset.mem_erase]
      tauto
    · rw [getD_of_len_le _ (by simp only [List.length_set]; omega),
        getD_of_len_le _ (by omega)]
      simp
  · rw [getD_set_ne _ _ (by exact fun h => hjc h.symm)]
    by_cases hji : j = i
    · subst hji
      by_cases hlen : j < g.length
      · rw [getD_set_self _ _ hlen]
        simp only [Finset.mem_erase]
        tauto
      · rw [getD_of_len_le _ (by simp only [List.length_set]; omega),
        getD_of_len_le _ (by omega)]
        simp
    · rw [getD_set_ne _ _ (by exact fun h => hji h.symm)]
      tauto

lemma removeLinkGraph_length (g : List (Finset ℕ)) (i c cc : ℕ) :
    (removeLinkGraph g i c cc).length = g.length := by
  unfold removeLinkGraph
  split
  · simp
  · split <;> simp

lemma addLinkGraph_length (g : List (Finset ℕ)) (i c : ℕ) :
    (addLinkGraph g i c).length = g.length := by
  simp [addLinkGraph]

lemma addAssignment_c (s : DdState) (i c : ℕ) :
    (addAssignment s i c).c = s.c.set i (some c) := by
  unfold addAssignment
  split <;> rfl

lemma addAssignment_g (s : DdState) (i c : ℕ) :
    (addAssignment s i c).g = addLinkGraph s.g i c := by
  unfold addAssignment
  split <;> rfl

lemma addAssignment_N (s : DdState) (i c : ℕ) : (addAssignment s i c).N = s.N := by
  unfold addAssignment
  split <;> rfl

lemma addAssignment_merge (s : DdState) (i c : ℕ) (h : zAt s i ≠ zAt s c) :
    (addAssignment s i c).z =
        mixtureMerge s.z (min (zAt s i) (zAt s c)) (max (zAt s i) (zAt s c)) ∧
      (addAssignment s i c).pool = s.pool ++ [max (zAt s i) (zAt s c)] ∧
      (addAssignment s i c).K = s.K - 1 := by
  have key : addAssignment s i c =
      { s with pool := s.pool ++ [max (zAt s i) (zAt s c)],
               K := s.K - 1,
               z := mixtureMerge s.z (min (zAt s i) (zAt s c)) (max (zAt s i) (zAt s c)),
               c := s.c.set i (some c),
               g := addLinkGraph s.g i c } := by
    unfold addAssignment
    rcases lt_or_gt_of_ne h with hlt | hgt
    · have hng : ¬(zAt s i > zAt s c) := by omega
      rw [max_eq_right hlt.le, min_eq_left hlt.le]
      simp only [if_pos h, if_neg hng]
    · rw [max_eq_left hgt.le, min_eq_right hgt.le]
      simp only [if_pos h, if_pos hgt]
  rw [key]
  exact ⟨rfl, rfl, rfl⟩

lemma addAssignment_same (s : DdState) (i c : ℕ) (h : zAt s i = zAt s c) :
    (addAssignment s i c).z = s.z ∧
      (addAssignment s i c).pool = s.pool ∧
      (addAssignment s i c).K = s.K := by
  unfold addAssignment
  rw [if_neg (by simpa using h)]
  exact ⟨rfl, rfl, rfl⟩

lemma removeAssignment_g (s : DdState) (i : ℕ) :
    (removeAssignment s i).g = removeLinkGraph s.g i (cVal s i) (cVal s (cVal s i)) := by
  cases h : isTableSplit s i <;> simp [removeAssignment, h]

lemma removeAssignment_c (s : DdState) (i : ℕ) :
    (removeAssignment s i).c = s.c.set i none := by
  cases h : isTableSplit s i <;> simp [removeAssignment, h]

lemma removeAssignment_N (s : DdState) (i : ℕ) : (removeAssignment s i).N = s.N := by
  cases h : isTableSplit s i <;> simp [removeAssignment, h]

lemma removeAssignment_split_true (s : DdState) (i : ℕ) (h : isTableSplit s i = true) :
    (removeAssignment s i).z =
        mixtureSplit s.z (zAt s i) (s.pool.headD 0)
          (peopleNextTo (removeLinkGraph s.g i (cVal s i) (cVal s (cVal s i))) i) ∧
      (removeAssignment s i).pool = s.pool.tail ∧
      (removeAssignment s i).K = s.K + 1 := by
  refine ⟨?_, ?_, ?_⟩ <;> simp [removeAssignment, h, poolDraw, zAt]

lemma removeAssignment_split_false (s : DdState) (i : ℕ) (h : isTableSplit s i = false) :
    (removeAssignment s i).z = s.z ∧
      (removeAssignment s i).pool = s.pool ∧
      (removeAssignment s i).K = s.K := by
  refine ⟨?_, ?_, ?_⟩ <;> simp [removeAssignment, h]

/-! ### Properties of the component traversal `dfs` -/

lemma dfs_zero (g : List (Finset ℕ)) (v : Finset ℕ) (st : List ℕ) :
    dfs g 0 v st = v := rfl

lemma dfs_nil (g : List (Finset ℕ)) (m : ℕ) (v : Finset ℕ) :
    dfs g (m + 1) v [] = v := rfl

lemma dfs_cons_mem (g : List (Finset ℕ)) (m : ℕ) (v : Finset ℕ) {x : ℕ} (rest : List ℕ)
    (hx : x ∈ v) : dfs g (m + 1) v (x :: rest) = dfs g m v rest := by
  show (if x ∈ v then _ else _) = _
  rw [if_pos hx]

lemma dfs_cons_not_mem (g : List (Finset ℕ)) (m : ℕ) (v : Finset ℕ) {x : ℕ} (rest : List ℕ)
    (hx : x ∉ v) : dfs g (m + 1) v (x :: rest) =
      dfs g m (insert x v) (rest ++ (g.getD x ∅ \ insert x v).sort (· ≤ ·)) := by
  show (if x ∈ v then _ else _) = _
  rw [if_neg hx]

lemma subset_dfs (g : List (Finset ℕ)) :
    ∀ (fuel : ℕ) (visited : Finset ℕ) (stack : List ℕ), visited ⊆ dfs g fuel visited stack := by
  intro fuel
  induction fuel with
  | zero => intro v st; rw [dfs_zero]
  | succ m ih =>
    intro v st
    cases st with
    | nil => rw [dfs_nil]
    | cons x rest =>
      by_cases hx : x ∈ v
      · rw [dfs_cons_mem g m v rest hx]
        exact ih v rest
      · rw [dfs_cons_not_mem g m v rest hx]
        calc v ⊆ insert x v := Finset.subset_insert _ _
          _ ⊆ _ := ih (insert x v) _

lemma stack_head_mem_dfs (g : List (Finset ℕ)) {fuel : ℕ} (hf : 0 < fuel)
    (v : Finset ℕ) (x : ℕ) (rest : List ℕ) : x ∈ dfs g fuel v (x :: rest) := by
  obtain ⟨m, rfl⟩ : ∃ m, fuel = m + 1 := ⟨fuel - 1, by omega⟩
  by_cases hx : x ∈ v
  · rw [dfs_cons_mem g m v rest hx]
    exact subset_dfs g m v rest hx
  · rw [dfs_cons_not_mem g m v rest hx]
    exact subset_dfs g m _ _ (Finset.mem_insert_self x v)

lemma dfs_subset_reach (g : List (Finset ℕ)) (a : ℕ) :
    ∀ (fuel : ℕ) (v : Finset ℕ) (stack : List ℕ),
      (∀ x ∈ v, Reach g a x) → (∀ x ∈ stack, Reach g a x) →
      ∀ x ∈ dfs g fuel v stack, Reach g a x := by
  intro fuel
  induction fuel with
  | zero => intro v st hv _ x hx; rw [dfs_zero] at hx; exact hv x hx
  | succ m ih =>
    intro v st hv hs x hx
    cases st with
    | nil => rw [dfs_nil] at hx; exact hv x hx
    | cons y rest =>
      by_cases hy : y ∈ v
      · rw [dfs_cons_mem g m v rest hy] at hx
        exact ih v rest hv (fun z hz => hs z (List.mem_cons_of_mem y hz)) x hx
      · rw [dfs_cons_not_mem g m v rest hy] at hx
        refine ih (insert y v) _ ?_ ?_ x hx
        · intro z hz
          rcases Finset.mem_insert.mp hz with rfl | hz'
          · exact hs z (List.mem_cons_self _ _)
          · exact hv z hz'
        · intro z hz
          rcases List.mem_append.mp hz with hz' | hz'
          · exact hs z (List.mem_cons_of_mem y hz')
          · have hmem := (Finset.mem_sort (α := ℕ) (· ≤ ·)).mp hz'
            have hzy : z ∈ g.getD y ∅ := (Finset.mem_sdiff.mp hmem).1
            exact Relation.ReflTransGen.tail (hs y (List.mem_cons_self _ _)) hzy

lemma dfs_closed (g : List (Finset ℕ)) (n : ℕ) (hg : ∀ j, g.getD j ∅ ⊆ Finset.range n) :
    ∀ (fuel : ℕ) (v : Finset ℕ) (stack : List ℕ),
      ((n - (v ∩ Finset.range n).card) * (n + 1) + stack.length < fuel) →
      (∀ x ∈ stack, x < n) →
      (∀ x ∈ v, g.getD x ∅ ⊆ v ∪ stack.toFinset) →
      ∀ x ∈ dfs g fuel v stack, g.getD x ∅ ⊆ dfs g fuel v stack := by
  intro fuel
  induction fuel with
  | zero => intro v st hfuel; omega
  | succ m ih =>
    intro v st hfuel hstack hclosed
    cases st with
    | nil =>
      rw [dfs_nil]
      intro x hx
      have := hclosed x hx
      simpa using this
    | cons y rest =>
      by_cases hy : y ∈ v
      · rw [dfs_cons_mem g m v rest hy]
        refine ih v rest (by simp only [List.length_cons] at hfuel; omega)
          (fun z hz => hstack z (List.mem_cons_of_mem y hz)) ?_
        intro x hx z hz
        rcases Finset.mem_union.mp (hclosed x hx hz) with h3 | h3
        · exact Finset.mem_union_left _ h3
        · rcases List.mem_cons.mp (List.mem_toFinset.mp h3) with h4 | h4
          · exact Finset.mem_union_left _ (h4 ▸ hy)
          · exact Finset.mem_union_right _ (List.mem_toFinset.mpr h4)
      · have hyn : y < n := hstack y (List.mem_cons_self _ _)
        have hcard : ((insert y v) ∩ Finset.range n).card = (v ∩ Finset.range n).card + 1 := by
          rw [Finset.insert_inter_of_mem (Finset.mem_range.mpr hyn)]
          exact Finset.card_insert_of_not_mem (fun hmem => hy (Finset.mem_inter.mp hmem).1)
        have hcard_le : (v ∩ Finset.range n).card + 1 ≤ n := by
          have hsub : insert y (v ∩ Finset.range n) ⊆ Finset.range n :=
            Finset.insert_subset (Finset.mem_range.mpr hyn) Finset.inter_subset_right
          have hle := Finset.card_le_card hsub
          rw [Finset.card_insert_of_not_mem (fun hmem => hy (Finset.mem_inter.mp hmem).1)] at hle
          simpa using hle
        have hpush : ((g.getD y ∅ \ insert y v).sort (· ≤ ·)).length ≤ n := by
          rw [Finset.length_sort]
          calc (g.getD y ∅ \ insert y v).card ≤ (g.getD y ∅).card :=
                Finset.card_le_card Finset.sdiff_subset
            _ ≤ (Finset.range n).card := Finset.card_le_card (hg y)
            _ = n := Finset.card_range n
        rw [dfs_cons_not_mem g m v rest hy]
        refine ih (insert y v) _ ?_ ?_ ?_
        · rw [hcard]
          have hmul : (n - (v ∩ Finset.range n).card) * (n + 1) =
              (n - ((v ∩ Finset.range n).card + 1)) * (n + 1) + (n + 1) := by
            have h9 : n - (v ∩ Finset.range n).card =
                (n - ((v ∩ Finset.range n).card + 1)) + 1 := by omega
            rw [h9]; ring
          rw [List.length_append]
          simp only [List.length_cons] at hfuel
          omega
        · intro z hz
          rcases List.mem_append.mp hz with hz' | hz'
          · exact hstack z (List.mem_cons_of_mem y hz')
          · have hmem := (Finset.mem_sort (α := ℕ) (· ≤ ·)).mp hz'
            exact Finset.mem_range.mp (hg y (Finset.mem_sdiff.mp hmem).1)
        · intro x hx z hz
          rcases Finset.mem_insert.mp hx with rfl | hx'
          · by_cases hzv : z ∈ insert x v
            · exact Finset.mem_union_left _ hzv
            · refine Finset.mem_union_right _ ?_
              rw [List.toFinset_append, Finset.mem_union]
              right
              rw [List.mem_toFinset]
              exact (Finset.mem_sort (α := ℕ) (· ≤ ·)).mpr (Finset.mem_sdiff.mpr ⟨hz, hzv⟩)
          · rcases Finset.mem_union.mp (hclosed x hx' hz) with h3 | h3
            · exact Finset.mem_union_left _ (Finset.mem_insert_of_mem h3)
            · rcases List.mem_cons.mp (List.mem_toFinset.mp h3) with h4 | h4
              · exact Finset.mem_union_left _ (h4 ▸ Finset.mem_insert_self y v)
              · refine Finset.mem_union_right _ ?_
                rw [List.toFinset_append, Finset.mem_union]
                left
                exact List.mem_toFinset.mpr h4

lemma dfs_fuel_stable (g : List (Finset ℕ)) (n : ℕ)
    (hg : ∀ j, g.getD j ∅ ⊆ Finset.range n) :
    ∀ (fuel₁ fuel₂ : ℕ) (v : Finset ℕ) (stack : List ℕ),
      ((n - (v ∩ Finset.range n).card) * (n + 1) + stack.length < fuel₁) →
      ((n - (v ∩ Finset.range n).card) * (n + 1) + stack.length < fuel₂) →
      (∀ x ∈ stack, x < n) →
      dfs g fuel₁ v stack = dfs g fuel₂ v stack := by
  intro fuel₁
  induction fuel₁ with
  | zero => intro fuel₂ v st h1; omega
  | succ m ih =>
    intro fuel₂ v st h1 h2 hstack
    obtain ⟨m₂, rfl⟩ : ∃ m₂, fuel₂ = m₂ + 1 := ⟨fuel₂ - 1, by omega⟩
    cases st with
    | nil => rw [dfs_nil, dfs_nil]
    | cons y rest =>
      by_cases hy : y ∈ v
      · rw [dfs_cons_mem g m v rest hy, dfs_cons_mem g m₂ v rest hy]
        exact ih m₂ v rest (by simp only [List.length_cons] at h1; omega)
          (by simp only [List.length_cons] at h2; omega)
          (fun z hz => hstack z (List.mem_cons_of_mem y hz))
      · have hyn : y < n := hstack y (List.mem_cons_self _ _)
        have hcard : ((insert y v) ∩ Finset.range n).card = (v ∩ Finset.range n).card + 1 := by
          rw [Finset.insert_inter_of_mem (Finset.mem_range.mpr hyn)]
          exact Finset.card_insert_of_not_mem (fun hmem => hy (Finset.mem_inter.mp hmem).1)
        have hcard_le : (v ∩ Finset.range n).card + 1 ≤ n := by
          have hsub : insert y (v ∩ Finset.range n) ⊆ Finset.range n :=
            Finset.insert_subset (Finset.mem_range.mpr hyn) Finset.inter_subset_right
          have hle := Finset.card_le_card hsub
          rw [Finset.card_insert_of_not_mem (fun hmem => hy (Finset.mem_inter.mp hmem).1)] at hle
          simpa using hle
        have hpush : ((g.getD y ∅ \ insert y v).sort (· ≤ ·)).length ≤ n := by
          rw [Finset.length_sort]
          calc (g.getD y ∅ \ insert y v).card ≤ (g.getD y ∅).card :=
                Finset.card_le_card Finset.sdiff_subset
            _ ≤ (Finset.range n).card := Finset.card_le_card (hg y)
            _ = n := Finset.card_range n
        have hmul : (n - (v ∩ Finset.range n).card) * (n + 1) =
            (n - ((v ∩ Finset.range n).card + 1)) * (n + 1) + (n + 1) := by
          have h9 : n - (v ∩ Finset.range n).card =
              (n - ((v ∩ Finset.range n).card + 1)) + 1 := by omega
          rw [h9]; ring
        rw [dfs_cons_not_mem g m v rest hy, dfs_cons_not_mem g m₂ v rest hy]
        refine ih m₂ (insert y v) _ ?_ ?_ ?_
        · rw [hcard, List.length_append]
          simp only [List.length_cons] at h1
          omega
        · rw [hcard, List.length_append]
          simp only [List.length_cons] at h2
          omega
        · intro z hz
          rcases List.mem_append.mp hz with hz' | hz'
          · exact hstack z (List.mem_cons_of_mem y hz')
          · have hmem := (Finset.mem_sort (α := ℕ) (· ≤ ·)).mp hz'
            exact Finset.mem_range.mp (hg y (Finset.mem_sdiff.mp hmem).1)

lemma peopleNextTo_eq (g : List (Finset ℕ)) (n c : ℕ) (hlen : g.length = n) :
    peopleNextTo g c = dfs g (dfsFuel n) ∅ [c] := by
  unfold peopleNextTo
  rw [hlen]

lemma dfsFuel_pos (n : ℕ) : 0 < dfsFuel n := by
  unfold dfsFuel
  omega

lemma dfsFuel_init_lt (n : ℕ) :
    (n - ((∅ : Finset ℕ) ∩ Finset.range n).card) * (n + 1) + [0].length < dfsFuel n := by
  have h1 : ((∅ : Finset ℕ) ∩ Finset.range n).card = 0 := by simp
  have h2 : n * (n + 1) = n * n + n := by ring
  rw [h1]
  unfold dfsFuel
  simp only [Nat.sub_zero, List.length_singleton]
  omega

lemma mem_peopleNextTo (g : List (Finset ℕ)) (n c : ℕ) (hlen : g.length = n)
    (hc : c < n) (hg : ∀ j, g.getD j ∅ ⊆ Finset.range n) :
    ∀ x, x ∈ peopleNextTo g c ↔ Reach g c x := by
  have hfuel0 : (n - ((∅ : Finset ℕ) ∩ Finset.range n).card) * (n + 1) + [c].length <
      dfsFuel n := by
    have := dfsFuel_init_lt n
    simpa using this
  have hpeq : peopleNextTo g c = dfs g (dfsFuel n) ∅ [c] := peopleNextTo_eq g n c hlen
  intro x
  constructor
  · intro hx
    rw [hpeq] at hx
    refine dfs_subset_reach g c (dfsFuel n) ∅ [c] (by simp) ?_ x hx
    intro z hz
    rcases List.mem_singleton.mp hz with rfl
    exact Relation.ReflTransGen.refl
  · intro hx
    have hstart : c ∈ dfs g (dfsFuel n) ∅ [c] :=
      stack_head_mem_dfs g (dfsFuel_pos n) ∅ c []
    have hclosed := dfs_closed g n hg (dfsFuel n) ∅ [c] hfuel0
      (fun z hz => by rcases List.mem_singleton.mp hz with rfl; exact hc) (by simp)
    rw [hpeq]
    induction hx with
    | refl => exact hstart
    | tail hab hbc ih =>
      exact hclosed _ ih hbc

lemma removeLinkGraph_getD_subset (g : List (Finset ℕ)) (i c cc j : ℕ) :
    (removeLinkGraph g i c cc).getD j ∅ ⊆ g.getD j ∅ := by
  unfold removeLinkGraph
  by_cases h1 : c = i
  · rw [if_pos h1]
    by_cases hj : j = i
    · subst hj
      by_cases hl : j < g.length
      · rw [getD_set_self _ _ hl]
        exact Finset.erase_subset _ _
      · rw [getD_of_len_le _ (by rw [List.length_set]; omega)]
        exact Finset.empty_subset _
    · rw [getD_set_ne _ _ (fun h => hj h.symm)]
  · rw [if_neg h1]
    by_cases h2 : cc = i
    · rw [if_pos h2]
    · rw [if_neg h2]
      show ((g.set i ((g.getD i ∅).erase c)).set c _).getD j ∅ ⊆ _
      by_cases hjc : j = c
      · subst hjc
        by_cases hl : j < g.length
        · rw [getD_set_self _ _ (by rw [List.length_set]; omega)]
          refine (Finset.erase_subset _ _).trans ?_
          rw [getD_set_ne _ _ (fun h => h1 h.symm)]
        · rw [getD_of_len_le _ (by rw [List.length_set, List.length_set]; omega)]
          exact Finset.empty_subset _
      · rw [getD_set_ne _ _ (fun h => hjc h.symm)]
        by_cases hji : j = i
        · subst hji
          by_cases hl : j < g.length
          · rw [getD_set_self _ _ hl]
            exact Finset.erase_subset _ _
          · rw [getD_of_len_le _ (by rw [List.length_set]; omega)]
            exact Finset.empty_subset _
        · rw [getD_set_ne _ _ (fun h => hji h.symm)]

lemma gAt_bound_of_forall_lt {g : List (Finset ℕ)} {n : ℕ} (hlen : g.length = n)
    (h : ∀ j < n, g.getD j ∅ ⊆ Finset.range n) : ∀ j, g.getD j ∅ ⊆ Finset.range n := by
  intro j
  by_cases hj : j < n
  · exact h j hj
  · rw [getD_of_len_le _ (by omega)]
    exact Finset.empty_subset _

/-! ### Claim C10: `_get_people_next_to` terminates and contains its start -/

/-- C10: for a graph of size `n` whose stored adjacency indices lie in
`[0, n)` and a start customer `c < n`, the `_get_people_next_to` traversal
terminates (any fuel beyond the sufficient bound computes the same visited
set, so the Python `while` loop ends) and returns a set containing `c`
itself; in particular the result is non-empty even when `g[c]` is empty, and
the member set handed to the mixture model after `_remove_assignment(c)`
contains `c`. -/
theorem people_next_to_contains_start (g : List (Finset ℕ)) (n c : ℕ)
    (hlen : g.length = n) (hc : c < n) (hg : ∀ j, g.getD j ∅ ⊆ Finset.range n) :
    c ∈ peopleNextTo g c ∧
    peopleNextTo g c ≠ ∅ ∧
    (∀ fuel, dfsFuel n ≤ fuel → dfs g fuel ∅ [c] = peopleNextTo g c) ∧
    (∀ s : DdState, s.g = g → c ∈ peopleNextTo (removeAssignment s c).g c) := by
  have hpeq := peopleNextTo_eq g n c hlen
  have hstart : c ∈ peopleNextTo g c := by
    rw [hpeq]
    exact stack_head_mem_dfs g (dfsFuel_pos n) ∅ c []
  have hpot : (n - ((∅ : Finset ℕ) ∩ Finset.range n).card) * (n + 1) + [c].length <
      dfsFuel n := by
    have := dfsFuel_init_lt n
    simpa using this
  refine ⟨hstart, ?_, ?_, ?_⟩
  · intro hempty
    rw [hempty] at hstart
    exact absurd hstart (Finset.not_mem_empty c)
  · intro fuel hfuel
    rw [hpeq]
    refine dfs_fuel_stable g n hg fuel (dfsFuel n) ∅ [c] (lt_of_lt_of_le hpot hfuel)
      hpot ?_
    intro z hz
    rcases List.mem_singleton.mp hz with rfl
    exact hc
  · intro s hsg
    rw [removeAssignment_g, hsg]
    have hlen' : (removeLinkGraph g c (cVal s c) (cVal s (cVal s c))).length = n := by
      rw [removeLinkGraph_length, hlen]
    rw [peopleNextTo_eq _ n c hlen']
    exact stack_head_mem_dfs _ (dfsFuel_pos n) ∅ c []

/-- Witness for C10 at the concrete state `exC` (graph `[{0}]`, start 0). -/
theorem people_next_to_contains_start_witness :
    ((exC.g.length = 1 ∧ 0 < 1) ∧ 0 ∈ peopleNextTo exC.g 0) ∧
    peopleNextTo exC.g 0 ≠ ∅ := by
  have h := people_next_to_contains_start exC.g 1 0 (by decide) (by decide)
    (gAt_bound_of_forall_lt (by decide) (by decide))
  exact ⟨⟨⟨by decide, by decide⟩, h.1⟩, h.2.1⟩

/-! ### Claim C6: split bookkeeping of `_remove_assignment` -/

/-- C6: when the split check of `_remove_assignment(i)` returns `True`, a
new cluster id is drawn from the front of the reusable-id pool (the pool
loses exactly its head), `mixture.split` relabels exactly the connected
component of `i` in the post-removal undirected graph to the new id, and `K`
increases by exactly 1; when it returns `False`, pool, `z` and `K` are all
untouched. -/
theorem remove_assignment_split_behavior (s : DdState) (i : ℕ)
    (hi : i < s.N) (hg : s.g.length = s.N)
    (hb : ∀ j, s.g.getD j ∅ ⊆ Finset.range s.N)
    (hpool : isTableSplit s i = true → s.pool ≠ []) :
    (isTableSplit s i = true →
      (removeAssignment s i).pool = s.pool.tail ∧
      s.pool = s.pool.headD 0 :: (removeAssignment s i).pool ∧
      (removeAssignment s i).K = s.K + 1 ∧
      (removeAssignment s i).z =
        mixtureSplit s.z (zAt s i) (s.pool.headD 0)
          (peopleNextTo (removeAssignment s i).g i) ∧
      (∀ x, x ∈ peopleNextTo (removeAssignment s i).g i ↔
        Reach (removeAssignment s i).g i x)) ∧
    (isTableSplit s i = false →
      (removeAssignment s i).pool = s.pool ∧
      (removeAssignment s i).K = s.K ∧
      (removeAssignment s i).z = s.z) := by
  constructor
  · intro h
    obtain ⟨hz, hp, hK⟩ := removeAssignment_split_true s i h
    refine ⟨hp, ?_, hK, ?_, ?_⟩
    · rw [hp]
      rcases hne : s.pool with _ | ⟨a, t⟩
      · exact absurd hne (hpool h)
      · rfl
    · rw [hz, removeAssignment_g]
    · rw [removeAssignment_g]
      exact mem_peopleNextTo _ s.N i (by rw [removeLinkGraph_length, hg]) hi
        (fun j => (removeLinkGraph_getD_subset s.g i _ _ j).trans (hb j))
  · intro h
    obtain ⟨hz, hp, hK⟩ := removeAssignment_split_false s i h
    exact ⟨hp, hK, hz⟩

/-- Witness for C6 at the concrete state `exD` with `i = 2`: a genuine
split (component `{2}` moves to the fresh id 1 drawn from the pool). -/
theorem remove_assignment_split_behavior_witness :
    ((2 < exD.N ∧ exD.g.length = exD.N ∧ isTableSplit exD 2 = true ∧
        exD.pool ≠ []) ∧
      (removeAssignment exD 2).pool = [2] ∧
      (removeAssignment exD 2).K = 2) ∧
    (removeAssignment exD 2).z =
      mixtureSplit exD.z (zAt exD 2) (exD.pool.headD 0)
        (peopleNextTo (removeAssignment exD 2).g 2) := by
  have h := remove_assignment_split_behavior exD 2 (by decide) (by decide)
    (gAt_bound_of_forall_lt (by decide) (by decide)) (fun _ => by decide)
  have ht := h.1 (by decide)
  refine ⟨⟨⟨by decide, by decide, by decide, by decide⟩, ?_, ?_⟩, ht.2.2.2.1⟩
  · rw [ht.1]
    decide
  · rw [ht.2.2.1]
    decide

/-! ### Split detection: the `_is_table_split` traversal -/

lemma splitLoop_succ (cv : ℕ → ℕ) (i fuel : ℕ) (V : Finset ℕ) (cur : ℕ) :
    splitLoop cv i (fuel + 1) V cur =
      if cur ∈ V then true
      else if cv cur = i then false
      else splitLoop cv i fuel (insert cur V) (cv cur) := rfl

lemma orbit_bound {cv : ℕ → ℕ} {n i : ℕ} (hi : i < n) (hcv : ∀ x < n, cv x < n) :
    ∀ k, cv^[k] i < n := by
  intro k
  induction k with
  | zero => simpa using hi
  | succ m ih =>
    rw [Function.iterate_succ_apply']
    exact hcv _ ih

lemma orbit_mod {cv : ℕ → ℕ} {i j p : ℕ} (hp : 0 < p)
    (hcyc : cv^[j + p] i = cv^[j] i) :
    ∀ q, cv^[j + q] i = cv^[j + q % p] i := by
  intro q
  induction q using Nat.strong_induction_on with
  | _ q ih =>
    by_cases hq : q < p
    · rw [Nat.mod_eq_of_lt hq]
    · have hq' : q - p < q := by omega
      have hidx : j + q = (q - p) + (j + p) := by omega
      have step : cv^[j + q] i = cv^[j + (q - p)] i := by
        rw [hidx, Function.iterate_add_apply, hcyc, ← Function.iterate_add_apply]
        congr 1
        omega
      rw [step, ih (q - p) hq']
      have hqp : q % p = (q - p) % p := by
        conv_lhs => rw [show q = (q - p) + p from by omega]
        exact Nat.add_mod_right _ _
      rw [hqp]

lemma splitLoop_eq_false_iff (cv : ℕ → ℕ) (n i : ℕ) (hi : i < n)
    (hcv : ∀ x < n, cv x < n) :
    ∀ (fuel k : ℕ), 1 ≤ k → n + 2 ≤ fuel + k →
      (∀ m, 1 ≤ m → m ≤ k → cv^[m] i ≠ i) →
      (Finset.image (fun m => cv^[m] i) (Finset.range k)).card = k →
      (splitLoop cv i fuel (Finset.image (fun m => cv^[m] i) (Finset.range k))
          (cv^[k] i) = false ↔ ∃ m, 0 < m ∧ cv^[m] i = i) := by
  intro fuel
  induction fuel with
  | zero =>
    intro k hk1 hkfuel hinv hcard
    exfalso
    have himg : Finset.image (fun m => cv^[m] i) (Finset.range k) ⊆ Finset.range n := by
      intro x hx
      obtain ⟨m, _, rfl⟩ := Finset.mem_image.mp hx
      exact Finset.mem_range.mpr (orbit_bound hi hcv m)
    have hle := Finset.card_le_card himg
    rw [hcard, Finset.card_range] at hle
    omega
  | succ fuel ih =>
    intro k hk1 hkfuel hinv hcard
    rw [splitLoop_succ]
    by_cases hin : cv^[k] i ∈ Finset.image (fun m => cv^[m] i) (Finset.range k)
    · rw [if_pos hin]
      refine iff_of_false (by simp) ?_
      rintro ⟨m, hm0, hmi⟩
      obtain ⟨j, hjk, hji⟩ := Finset.mem_image.mp hin
      rw [Finset.mem_range] at hjk
      have hki : cv^[k] i ≠ i := hinv k hk1 le_rfl
      have hj1 : 1 ≤ j := by
        rcases Nat.eq_zero_or_pos j with rfl | h
        · exact absurd (by simpa using hji.symm) hki
        · exact h
      have hp : 0 < k - j := by omega
      have hcyc : cv^[j + (k - j)] i = cv^[j] i := by
        rw [show j + (k - j) = k from by omega]
        exact hji.symm
      by_cases hmk : m ≤ k
      · exact hinv m hm0 hmk hmi
      · have hq : m = j + (m - j) := by omega
        have := orbit_mod hp hcyc (m - j)
        rw [← hq] at this
        have hmod : (m - j) % (k - j) < k - j := Nat.mod_lt _ hp
        refine hinv (j + (m - j) % (k - j)) (by omega) (by omega) ?_
        rw [← this]
        exact hmi
    · rw [if_neg hin]
      by_cases hci : cv (cv^[k] i) = i
      · rw [if_pos hci]
        refine iff_of_true rfl ⟨k + 1, by omega, ?_⟩
        rw [Function.iterate_succ_apply']
        exact hci
      · rw [if_neg hci]
        have hins : insert (cv^[k] i) (Finset.image (fun m => cv^[m] i) (Finset.range k)) =
            Finset.image (fun m => cv^[m] i) (Finset.range (k + 1)) := by
          rw [Finset.range_succ, Finset.image_insert]
        have hcard' : (Finset.image (fun m => cv^[m] i) (Finset.range (k + 1))).card =
            k + 1 := by
          rw [← hins, Finset.card_insert_of_not_mem hin, hcard]
        have hinv' : ∀ m, 1 ≤ m → m ≤ k + 1 → cv^[m] i ≠ i := by
          intro m hm0 hmk
          rcases Nat.lt_or_ge m (k + 1) with h | h
          · exact hinv m hm0 (by omega)
          · have : m = k + 1 := by omega
            subst this
            rw [Function.iterate_succ_apply']
            exact hci
        have hstep : cv (cv^[k] i) = cv^[k + 1] i := (Function.iterate_succ_apply' cv k i).symm
        rw [hins, hstep]
        exact ih (k + 1) (by omega) (by omega) hinv' hcard'

lemma isTableSplit_eq_false_iff (s : DdState) (i : ℕ) (hi : i < s.N)
    (hcv : ∀ j < s.N, cVal s j < s.N) :
    (isTableSplit s i = false ↔ ∃ m, 0 < m ∧ (fun j => cVal s j)^[m] i = i) := by
  unfold isTableSplit
  by_cases h1 : cVal s i = i
  · simp only [h1, if_pos rfl]
    exact iff_of_true rfl ⟨1, by omega, by simpa using h1⟩
  · rw [if_neg h1]
    by_cases h2 : cVal s (cVal s i) = i
    · rw [if_pos h2]
      refine iff_of_true rfl ⟨2, by omega, ?_⟩
      show (fun j => cVal s j)^[2] i = i
      rw [show (2 : ℕ) = 1 + 1 from rfl, Function.iterate_add_apply]
      simpa using h2
    · rw [if_neg h2]
      have hone : Finset.image (fun m => (fun j => cVal s j)^[m] i) (Finset.range 1) =
          {i} := by
        simp
      have hcur : (fun j => cVal s j) i = (fun j => cVal s j)^[1] i := by simp
      rw [show ({i} : Finset ℕ) = Finset.image (fun m => (fun j => cVal s j)^[m] i)
          (Finset.range 1) from hone.symm, hcur]
      refine splitLoop_eq_false_iff (fun j => cVal s j) s.N i hi hcv (s.N + 1) 1
        le_rfl (by omega) ?_ (by simp)
      intro m hm0 hm1
      have : m = 1 := by omega
      subst this
      simpa using h1

/-! ### Claim C2: the split-detection traversal -/

/-- C2: `_is_table_split(i)` returns `False` immediately on a self link
(`c[i] = i`) or a mutual pair (`c[c[i]] = i`); in general, it returns
`False` exactly when the functional-edge traversal `c[i], c[c[i]], …`
returns to `i` (equivalently, `i` lies on a directed cycle: some positive
iterate of the assignment map sends `i` back to itself), and `True` exactly
when the traversal revisits an already-visited node without reaching `i`. -/
theorem split_detection_traversal (s : DdState) (i : ℕ) (hi : i < s.N)
    (hcv : ∀ j < s.N, cVal s j < s.N) :
    (cVal s i = i → isTableSplit s i = false) ∧
    (cVal s (cVal s i) = i → isTableSplit s i = false) ∧
    (isTableSplit s i = false ↔ ∃ m, 0 < m ∧ (fun j => cVal s j)^[m] i = i) := by
  refine ⟨?_, ?_, isTableSplit_eq_false_iff s i hi hcv⟩
  · intro h1
    unfold isTableSplit
    rw [if_pos h1]
  · intro h2
    unfold isTableSplit
    by_cases h1 : cVal s i = i
    · rw [if_pos h1]
    · rw [if_neg h1, if_pos h2]

/-- Witness for C2: at `exC` the self-linked customer 0 reports no split;
at `exD` the characterization is instantiated for customer 2 (whose removal
does split the table). -/
theorem split_detection_traversal_witness :
    ((0 < exC.N ∧ ∀ j < exC.N, cVal exC j < exC.N) ∧ isTableSplit exC 0 = false) ∧
    (isTableSplit exD 2 = false ↔ ∃ m, 0 < m ∧ (fun j => cVal exD j)^[m] 2 = 2) := by
  have h1 := split_detection_traversal exC 0 (by decide) (by decide)
  have h2 := split_detection_traversal exD 2 (by decide) (by decide)
  exact ⟨⟨⟨by decide, by decide⟩, h1.1 (by decide)⟩, h2.2.2⟩

/-! ### The likelihood cache and the assignment log-weight -/

lemma cacheLookup_cons (e : Finset ℕ × ℚ) (rest : List (Finset ℕ × ℚ)) (T : Finset ℕ) :
    cacheLookup (e :: rest) T = if e.1 = T then some e.2 else cacheLookup rest T := rfl

lemma cacheGet_fst (marg : Finset ℕ → ℚ) (cache : List (Finset ℕ × ℚ)) (S : Finset ℕ)
    (hc : ∀ T v, cacheLookup cache T = some v → v = marg T) :
    (cacheGet marg cache S).1 = marg S := by
  unfold cacheGet
  cases h : cacheLookup cache S with
  | none => simp [h]
  | some v =>
    simp [h]
    exact hc S v h

lemma cacheGet_snd_consistent (marg : Finset ℕ → ℚ) (cache : List (Finset ℕ × ℚ))
    (S : Finset ℕ) (hc : ∀ T v, cacheLookup cache T = some v → v = marg T) :
    ∀ T v, cacheLookup (cacheGet marg cache S).2 T = some v → v = marg T := by
  unfold cacheGet
  cases h : cacheLookup cache S with
  | some v =>
    simp only [h]
    exact hc
  | none =>
    simp only [h]
    intro T v hv
    rw [cacheLookup_cons] at hv
    by_cases hST : S = T
    · subst hST
      rw [if_pos rfl] at hv
      exact (Option.some_injective _ hv).symm
    · rw [if_neg hST] at hv
      exact hc T v hv

lemma likelihoodUnderZ_fst (marg : Finset ℕ → ℚ) (s : DdState) (i c : ℕ)
    (hc : ∀ T v, cacheLookup s.cache T = some v → v = marg T) :
    (likelihoodUnderZ marg s i c).1 =
      marg (peopleNextTo s.g i ∪ peopleNextTo s.g c) -
        marg (peopleNextTo s.g i) - marg (peopleNextTo s.g c) := by
  have hc1 := cacheGet_snd_consistent marg s.cache (peopleNextTo s.g i) hc
  have hc2 := cacheGet_snd_consistent marg _ (peopleNextTo s.g c) hc1
  show (cacheGet marg (cacheGet marg (cacheGet marg s.cache (peopleNextTo s.g i)).2
          (peopleNextTo s.g c)).2 (peopleNextTo s.g i ∪ peopleNextTo s.g c)).1 -
        (cacheGet marg s.cache (peopleNextTo s.g i)).1 -
        (cacheGet marg (cacheGet marg s.cache (peopleNextTo s.g i)).2
          (peopleNextTo s.g c)).1 = _
  rw [cacheGet_fst marg s.cache (peopleNextTo s.g i) hc,
    cacheGet_fst marg _ (peopleNextTo s.g c) hc1,
    cacheGet_fst marg _ (peopleNextTo s.g i ∪ peopleNextTo s.g c) hc2]

/-! ### Claim C3: the three-case assignment log-weight formula -/

/-- C3: the log-weight of candidate `t` for customer `i` is `log(alpha)`
when `t = i`; `log(decay(|timestamp[i] - timestamp[t]|))` when the two share
a cluster id; and additionally `L(k ∪ l) - L(k) - L(l)` when they differ,
where `L` is the cache-mediated marginal likelihood (equal to the external
marginal on a consistent cache) and `k`, `l` are exactly the undirected
components of `i` and `t`. -/
theorem assignment_log_weight_formula (flog fdec : ℚ → ℚ) (alpha : ℚ)
    (marg : Finset ℕ → ℚ) (s : DdState) (i t : ℕ)
    (hcache : ∀ T v, cacheLookup s.cache T = some v → v = marg T)
    (hlen : s.g.length = s.N) (hi : i < s.N) (ht : t < s.N)
    (hb : ∀ j, s.g.getD j ∅ ⊆ Finset.range s.N) :
    assignmentProbability flog fdec alpha marg s i i = flog alpha ∧
    (i ≠ t → zAt s i = zAt s t →
      assignmentProbability flog fdec alpha marg s i t =
        flog (fdec |tsAt s i - tsAt s t|)) ∧
    (i ≠ t → zAt s i ≠ zAt s t →
      assignmentProbability flog fdec alpha marg s i t =
        flog (fdec |tsAt s i - tsAt s t|) +
          (marg (peopleNextTo s.g i ∪ peopleNextTo s.g t) -
            marg (peopleNextTo s.g i) - marg (peopleNextTo s.g t))) ∧
    (∀ x, x ∈ peopleNextTo s.g i ↔ Reach s.g i x) ∧
    (∀ x, x ∈ peopleNextTo s.g t ↔ Reach s.g t x) := by
  refine ⟨?_, ?_, ?_, mem_peopleNextTo s.g s.N i hlen hi hb,
    mem_peopleNextTo s.g s.N t hlen ht hb⟩
  · unfold assignmentProbability
    rw [if_pos rfl]
  · intro hne hz
    unfold assignmentProbability
    rw [if_neg hne, if_pos hz]
  · intro hne hz
    unfold assignmentProbability
    rw [if_neg hne, if_neg hz, likelihoodUnderZ_fst marg s i t hcache]

/-- Witness for C3 at `exA` (customers 0 and 1 sit at different tables;
`flog`, `fdec` instantiated with the identity, `alpha = 5`, the marginal
with the cardinality): the self weight is `log alpha` and the merge weight
evaluates through the empty (hence consistent) cache. -/
theorem assignment_log_weight_formula_witness :
    ((exA.g.length = exA.N ∧ 0 < exA.N ∧ 1 < exA.N) ∧
      assignmentProbability (fun q => q) (fun q => q) 5
        (fun _ => (0 : ℚ)) exA 0 0 = 5) ∧
    assignmentProbability (fun q => q) (fun q => q) 5
      (fun _ => (0 : ℚ)) exA 0 1 = 0 := by
  have hcache : ∀ T v, cacheLookup exA.cache T = some v → v = (fun _ => (0 : ℚ)) T := by
    intro T v hv
    exact absurd hv (by simp [exA, cacheLookup])
  have h := assignment_log_weight_formula (fun q => q) (fun q => q) 5
    (fun _ => (0 : ℚ)) exA 0 1 hcache (by decide) (by decide) (by decide)
    (gAt_bound_of_forall_lt (by decide) (by decide))
  refine ⟨⟨⟨by decide, by decide, by decide⟩, h.1⟩, ?_⟩
  rw [h.2.2.1 (by decide) (by decide)]
  norm_num [tsAt, exA]

/-! ### Claim C7: `log(0)` on a zero decay weight -/

/-- C7 (refuting the claim as stated): the window decay kernel returns
weight 0 at distance 2 ≥ a = 1, and `_assignment_probability` then
evaluates `math.log(0)` — modelled as `none`, i.e. Python raises
`ValueError` — instead of excluding the candidate or treating it as
negative infinity. -/
theorem window_decay_zero_weight_log_error :
    window_decay 2 1 = 0 ∧
    assignmentProbabilityChecked (fun q => q) (fun d => window_decay d 1) 1
      (fun _ => 0) exE 0 1 = none := by
  constructor
  · norm_num [window_decay]
  · simp [assignmentProbabilityChecked, mathLog, window_decay, tsAt, zAt, exE]

/-! ### Claim C8: normalization of the sampling probabilities -/

lemma sum_map_div (l : List ℚ) (f : ℚ → ℚ) (c : ℚ) :
    (l.map (fun x => f x / c)).sum = (l.map f).sum / c := by
  induction l with
  | nil => simp
  | cons a t ih => simp [ih, add_div]

lemma fexp_sub {fexp : ℚ → ℚ} (hhom : ∀ a b, fexp (a + b) = fexp a * fexp b)
    (hpos : ∀ x, 0 < fexp x) (a b : ℚ) : fexp (a - b) = fexp a / fexp b := by
  have h := hhom (a - b) b
  rw [sub_add_cancel] at h
  have hb : fexp b ≠ 0 := ne_of_gt (hpos b)
  field_simp [h]

lemma normalizeProbs_spec (fexp fln : ℚ → ℚ) (ps : List (ℕ × ℚ)) (hne : ps ≠ [])
    (hhom : ∀ a b, fexp (a + b) = fexp a * fexp b)
    (hpos : ∀ x, 0 < fexp x)
    (hinv : fexp (fln (shiftedExpSum fexp (ps.map Prod.snd))) =
      shiftedExpSum fexp (ps.map Prod.snd)) :
    (normalizeProbs fexp fln ps).map Prod.fst = ps.map Prod.fst ∧
    (∀ p ∈ normalizeProbs fexp fln ps, 0 ≤ p.2) ∧
    ((normalizeProbs fexp fln ps).map Prod.snd).sum = 1 := by
  have hmain : normalizeProbs fexp fln ps =
      ps.map (fun p => (p.1, fexp (p.2 - logsumexpQ fexp fln (ps.map Prod.snd)))) := rfl
  have hSpos : 0 < shiftedExpSum fexp (ps.map Prod.snd) := by
    unfold shiftedExpSum
    apply List.sum_pos
    · intro x hx
      obtain ⟨y, _, rfl⟩ := List.mem_map.mp hx
      exact hpos _
    · intro h
      apply hne
      have h1 := congrArg List.length h
      simp only [List.length_map, List.length_nil] at h1
      exact List.length_eq_zero.mp h1
  have hS0 : shiftedExpSum fexp (ps.map Prod.snd) ≠ 0 := ne_of_gt hSpos
  refine ⟨?_, ?_, ?_⟩
  · rw [hmain, List.map_map]
    rfl
  · intro p hp
    rw [hmain] at hp
    obtain ⟨q, _, rfl⟩ := List.mem_map.mp hp
    exact le_of_lt (hpos _)
  · rw [hmain, List.map_map]
    have step1 : ∀ p ∈ ps,
        (Prod.snd ∘ fun p : ℕ × ℚ =>
          (p.1, fexp (p.2 - logsumexpQ fexp fln (ps.map Prod.snd)))) p =
        fexp (p.2 - maxList (ps.map Prod.snd)) / shiftedExpSum fexp (ps.map Prod.snd) := by
      intro p _
      show fexp (p.2 - logsumexpQ fexp fln (ps.map Prod.snd)) = _
      unfold logsumexpQ
      rw [show p.2 - (maxList (ps.map Prod.snd) +
          fln (shiftedExpSum fexp (ps.map Prod.snd))) =
        (p.2 - maxList (ps.map Prod.snd)) - fln (shiftedExpSum fexp (ps.map Prod.snd))
        from by ring]
      rw [fexp_sub hhom hpos, hinv]
    rw [List.map_congr_left step1]
    have step2 : ps.map (fun p =>
        fexp (p.2 - maxList (ps.map Prod.snd)) / shiftedExpSum fexp (ps.map Prod.snd)) =
        (ps.map Prod.snd).map (fun x =>
          fexp (x - maxList (ps.map Prod.snd)) / shiftedExpSum fexp (ps.map Prod.snd)) := by
      rw [List.map_map]
      rfl
    rw [step2, sum_map_div]
    exact div_self hS0

/-- C8: the Gibbs step's probability vector covers all `N` candidate
indices `0, …, N-1` (including `i` itself), every entry is non-negative,
the entries sum to 1, and the normalization subtracts the max-shifted
log-sum-exp of the log-weights before exponentiating (the definition of
`sampleStepProbs` / `logsumexpQ`); stated over an abstract
exponential/logarithm pair satisfying the exponential law, positivity, and
the left-inverse property at the shifted sum. -/
theorem sampling_probabilities_normalized (fexp fln flog fdec : ℚ → ℚ) (alpha : ℚ)
    (marg : Finset ℕ → ℚ) (s : DdState) (i : ℕ) (hN : 0 < s.N)
    (hhom : ∀ a b, fexp (a + b) = fexp a * fexp b)
    (hpos : ∀ x, 0 < fexp x)
    (hinv : fexp (fln (shiftedExpSum fexp
        ((getAssignmentProbabilities flog fdec alpha marg s i).map Prod.snd))) =
      shiftedExpSum fexp
        ((getAssignmentProbabilities flog fdec alpha marg s i).map Prod.snd)) :
    (sampleStepProbs fexp fln flog fdec alpha marg s i).map Prod.fst =
      List.range s.N ∧
    (∀ p ∈ sampleStepProbs fexp fln flog fdec alpha marg s i, 0 ≤ p.2) ∧
    ((sampleStepProbs fexp fln flog fdec alpha marg s i).map Prod.snd).sum = 1 := by
  have hne : getAssignmentProbabilities flog fdec alpha marg s i ≠ [] := by
    intro h
    have h1 := congrArg List.length h
    unfold getAssignmentProbabilities at h1
    simp at h1
    omega
  obtain ⟨h1, h2, h3⟩ := normalizeProbs_spec fexp fln _ hne hhom hpos hinv
  refine ⟨?_, h2, h3⟩
  show (normalizeProbs fexp fln (getAssignmentProbabilities flog fdec alpha marg s i)).map
      Prod.fst = List.range s.N
  rw [h1]
  unfold getAssignmentProbabilities
  rw [List.map_map]
  show List.map (fun c : ℕ => c) (List.range s.N) = List.range s.N
  simp

/-- Witness for C8 at `exC` (one customer) with the constant exponential
`fexp ≡ 1` and `fln ≡ 0`, which satisfy all three contract hypotheses on
this input. -/
theorem sampling_probabilities_normalized_witness :
    ((0 < exC.N) ∧
      ((sampleStepProbs (fun _ => 1) (fun _ => 0) (fun q => q) (fun q => q) 3
          (fun _ => 0) exC 0).map Prod.snd).sum = 1) ∧
    (sampleStepProbs (fun _ => 1) (fun _ => 0) (fun q => q) (fun q => q) 3
        (fun _ => 0) exC 0).map Prod.fst = List.range exC.N := by
  have h := sampling_probabilities_normalized (fun _ => 1) (fun _ => 0) (fun q => q)
    (fun q => q) 3 (fun _ => 0) exC 0 (by decide)
    (fun a b => by norm_num) (fun x => by norm_num)
    (by simp [shiftedExpSum, getAssignmentProbabilities, exC, List.range_succ,
      Function.comp_def])
  exact ⟨⟨by decide, h.2.2⟩, h.1⟩

/-! ### Claim C4: merge behaviour of `_add_assignment` -/

/-- C4: on `_add_assignment(i, t)` with `z[i] ≠ z[t]`, the cluster with the
numerically larger id is absorbed into the smaller one (the cluster-id array
is rewritten by `merge(min, max)`), the larger id is appended to the
reusable-id pool, and `K` drops by exactly 1; with `z[i] = z[t]` none of
these change.  In both cases the link is then applied: `c[i] = t` and the
undirected edge `{i, t}` is present in `g`. -/
theorem add_assignment_merge_behavior (s : DdState) (i t : ℕ)
    (hi : i < s.N) (ht : t < s.N)
    (hc : s.c.length = s.N) (hg : s.g.length = s.N) (hz : s.z.length = s.N) :
    (zAt s i ≠ zAt s t →
      (addAssignment s i t).K = s.K - 1 ∧
      (addAssignment s i t).pool = s.pool ++ [max (zAt s i) (zAt s t)] ∧
      (addAssignment s i t).z =
        mixtureMerge s.z (min (zAt s i) (zAt s t)) (max (zAt s i) (zAt s t)) ∧
      (∀ j < s.N, zAt (addAssignment s i t) j =
        if zAt s j = max (zAt s i) (zAt s t) then min (zAt s i) (zAt s t)
        else zAt s j)) ∧
    (zAt s i = zAt s t →
      (addAssignment s i t).K = s.K ∧
      (addAssignment s i t).pool = s.pool ∧
      (addAssignment s i t).z = s.z) ∧
    cAt (addAssignment s i t) i = some t ∧
    t ∈ gAt (addAssignment s i t) i ∧
    i ∈ gAt (addAssignment s i t) t := by
  refine ⟨?_, ?_, ?_, ?_, ?_⟩
  · intro hne
    obtain ⟨hzeq, hpool, hK⟩ := addAssignment_merge s i t hne
    refine ⟨hK, hpool, hzeq, ?_⟩
    intro j hj
    show (addAssignment s i t).z.getD j 0 = _
    rw [hzeq, mixtureMerge_getD _ _ (by omega)]
    rfl
  · intro heq
    obtain ⟨hzeq, hpool, hK⟩ := addAssignment_same s i t heq
    exact ⟨hK, hpool, hzeq⟩
  · show (addAssignment s i t).c.getD i none = some t
    rw [addAssignment_c]
    exact getD_set_self _ _ (by omega)
  · show t ∈ (addAssignment s i t).g.getD i ∅
    rw [addAssignment_g]
    rw [mem_addLinkGraph (by omega) (by omega)]
    tauto
  · show i ∈ (addAssignment s i t).g.getD t ∅
    rw [addAssignment_g]
    rw [mem_addLinkGraph (by omega) (by omega)]
    tauto

/-- Witness for C4 at the concrete state `exA` with `i = 1`, `t = 0`
(a genuine merge: `z = [0, 1]` collapses to `[0, 0]`, id 1 joins the pool). -/
theorem add_assignment_merge_behavior_witness :
    ((1 < exA.N ∧ 0 < exA.N ∧ exA.c.length = exA.N ∧ exA.g.length = exA.N ∧
        exA.z.length = exA.N) ∧
      (addAssignment exA 1 0).K = 1 ∧
      (addAssignment exA 1 0).pool = [2, 3, 1] ∧
      (addAssignment exA 1 0).z = [0, 0]) ∧
    cAt (addAssignment exA 1 0) 1 = some 0 ∧
    0 ∈ gAt (addAssignment exA 1 0) 1 := by
  have h := add_assignment_merge_behavior exA 1 0 (by decide) (by decide)
    (by decide) (by decide) (by decide)
  have hm := h.1 (by decide)
  refine ⟨⟨⟨by decide, by decide, by decide, by decide, by decide⟩, ?_, ?_, ?_⟩,
    h.2.2.1, h.2.2.2.1⟩
  · rw [hm.1]; decide
  · rw [hm.2.1]; decide
  · rw [hm.2.2.1]; decide

/-! ### Claim C5: graph update of `_remove_assignment` -/

/-- C5: `_remove_assignment(i)` evaluates the split check on the pre-removal
state (all branch decisions below are predicates of the input state), then
updates `g` by exactly one of three cases — self link removed from `g[i]`;
mutual 2-cycle leaves `g` unchanged; otherwise the edge is deleted from both
adjacency sets — and sets `c[i]` to the unassigned sentinel. -/
theorem remove_assignment_graph_update (s : DdState) (i : ℕ)
    (hi : i < s.N) (hc : s.c.length = s.N) :
    cAt (removeAssignment s i) i = none ∧
    (cVal s i = i →
      (removeAssignment s i).g = s.g.set i ((gAt s i).erase i)) ∧
    (cVal s i ≠ i → cVal s (cVal s i) = i →
      (removeAssignment s i).g = s.g) ∧
    (cVal s i ≠ i → cVal s (cVal s i) ≠ i →
      (removeAssignment s i).g =
        (s.g.set i ((gAt s i).erase (cVal s i))).set (cVal s i)
          (((s.g.set i ((gAt s i).erase (cVal s i))).getD (cVal s i) ∅).erase i)) ∧
    (isTableSplit s i = false →
      (removeAssignment s i).z = s.z ∧ (removeAssignment s i).K = s.K ∧
        (removeAssignment s i).pool = s.pool) := by
  refine ⟨?_, ?_, ?_, ?_, ?_⟩
  · show (removeAssignment s i).c.getD i none = none
    rw [removeAssignment_c]
    exact getD_set_self _ _ (by omega)
  · intro h1
    rw [removeAssignment_g]
    unfold removeLinkGraph
    rw [if_pos h1]
    rfl
  · intro h1 h2
    rw [removeAssignment_g]
    unfold removeLinkGraph
    rw [if_neg h1, if_pos h2]
  · intro h1 h2
    rw [removeAssignment_g]
    unfold removeLinkGraph
    rw [if_neg h1, if_neg h2]
    rfl
  · intro hsp
    obtain ⟨h1, h2, h3⟩ := removeAssignment_split_false s i hsp
    exact ⟨h1, h3, h2⟩

/-- Witness for C5 at the concrete mutual-pair state `exB` with `i = 0`
(the 2-cycle case: `g` is left unchanged, `c[0]` becomes unassigned). -/
theorem remove_assignment_graph_update_witness :
    ((0 < exB.N ∧ exB.c.length = exB.N) ∧
      cAt (removeAssignment exB 0) 0 = none) ∧
    (removeAssignment exB 0).g = exB.g := by
  have h := remove_assignment_graph_update exB 0 (by decide) (by decide)
  exact ⟨⟨⟨by decide, by decide⟩, h.1⟩, h.2.2.1 (by decide) (by decide)⟩

/-! ### Claim C9: ingestion of a new customer -/

/-- C9: a newly ingested customer `i = N` starts self-linked (`c[i] = i`,
`g[i] = {i}`) at its own fresh singleton table (id drawn from the pool, `K`
incremented); whenever the running customer count then exceeds `Kmax`, the
self link is immediately removed and the customer re-assigned to the oracle
value `r` of `random.randint(0, i)` (a uniformly random existing customer
index, `r ≤ i`); otherwise the ingested state is kept.  The timestamp is
stored day-scaled afterwards. -/
theorem new_document_selflink_and_overflow_resample
    (s : DdState) (docId : ℕ) (docTs : ℚ) (r : ℕ) (hr : r ≤ s.N)
    (hc : s.c.length = s.N) (hg : s.g.length = s.N) (hz : s.z.length = s.N) :
    cAt { s with ids := s.ids ++ [docId], c := s.c ++ [some s.N],
                 g := s.g ++ [{s.N}], z := s.z ++ [s.pool.headD 0],
                 pool := s.pool.tail, N := s.N + 1, K := s.K + 1 } s.N = some s.N ∧
    gAt { s with ids := s.ids ++ [docId], c := s.c ++ [some s.N],
                 g := s.g ++ [{s.N}], z := s.z ++ [s.pool.headD 0],
                 pool := s.pool.tail, N := s.N + 1, K := s.K + 1 } s.N = {s.N} ∧
    zAt { s with ids := s.ids ++ [docId], c := s.c ++ [some s.N],
                 g := s.g ++ [{s.N}], z := s.z ++ [s.pool.headD 0],
                 pool := s.pool.tail, N := s.N + 1, K := s.K + 1 } s.N = s.pool.headD 0 ∧
    (s.N + 1 > s.Kmax →
      addDocument s docId docTs r =
        (fun s₂ => { s₂ with timestamps := s₂.timestamps ++ [docTs / (60 * 60 * 24)] })
          (addAssignment
            (removeAssignment
              { s with ids := s.ids ++ [docId], c := s.c ++ [some s.N],
                       g := s.g ++ [{s.N}], z := s.z ++ [s.pool.headD 0],
                       pool := s.pool.tail, N := s.N + 1, K := s.K + 1 } s.N)
            s.N r)) ∧
    (s.N + 1 ≤ s.Kmax →
      addDocument s docId docTs r =
        { s with ids := s.ids ++ [docId], c := s.c ++ [some s.N],
                 g := s.g ++ [{s.N}], z := s.z ++ [s.pool.headD 0],
                 pool := s.pool.tail, N := s.N + 1, K := s.K + 1,
                 timestamps := s.timestamps ++ [docTs / (60 * 60 * 24)] }) := by
  refine ⟨?_, ?_, ?_, ?_, ?_⟩
  · show (s.c ++ [some s.N]).getD s.N none = some s.N
    rw [← hc]
    exact getD_concat_length _ _
  · show (s.g ++ [{s.N}]).getD s.N ∅ = {s.N}
    rw [← hg]
    exact getD_concat_length _ _
  · show (s.z ++ [s.pool.headD 0]).getD s.N 0 = s.pool.headD 0
    rw [← hz]
    exact getD_concat_length _ _
  · intro hover
    unfold addDocument
    simp only [poolDraw]
    rw [if_pos (by exact hover)]
  · intro hunder
    unfold addDocument
    simp only [poolDraw]
    rw [if_neg (by omega)]

/-- Witness for C9 at the concrete state `exC` (capacity 3 not exceeded:
the new customer stays self-linked) with `r = 0`. -/
theorem new_document_selflink_and_overflow_resample_witness :
    ((0 ≤ exC.N ∧ exC.c.length = exC.N ∧ exC.g.length = exC.N ∧
        exC.z.length = exC.N) ∧
      cAt { exC with ids := exC.ids ++ [3], c := exC.c ++ [some exC.N],
                     g := exC.g ++ [{exC.N}], z := exC.z ++ [exC.pool.headD 0],
                     pool := exC.pool.tail, N := exC.N + 1, K := exC.K + 1 }
          exC.N = some exC.N) ∧
    addDocument exC 3 5 0 =
      { exC with ids := exC.ids ++ [3], c := exC.c ++ [some exC.N],
                 g := exC.g ++ [{exC.N}], z := exC.z ++ [exC.pool.headD 0],
                 pool := exC.pool.tail, N := exC.N + 1, K := exC.K + 1,
                 timestamps := exC.timestamps ++ [5 / (60 * 60 * 24)] } := by
  have h := new_document_selflink_and_overflow_resample exC 3 5 0 (by decide)
    (by decide) (by decide) (by decide)
  exact ⟨⟨⟨by decide, by decide, by decide, by decide⟩, h.1⟩, h.2.2.2.2 (by decide)⟩

/-! ### Reachability lemmas for the invariant proof (claim C1) -/

lemma rtg_congr {α} {r r' : α → α → Prop} (h : ∀ a b, r a b ↔ r' a b) {j k : α} :
    Relation.ReflTransGen r j k ↔ Relation.ReflTransGen r' j k :=
  ⟨Relation.ReflTransGen.mono (fun a b hab => (h a b).mp hab),
   Relation.ReflTransGen.mono (fun a b hab => (h a b).mpr hab)⟩

lemma rtg_symm {α} {r : α → α → Prop} (hsymm : ∀ a b, r a b → r b a) {j k : α}
    (h : Relation.ReflTransGen r j k) : Relation.ReflTransGen r k j := by
  induction h with
  | refl => exact Relation.ReflTransGen.refl
  | tail _ hbc ih =>
    exact Relation.ReflTransGen.trans
      (Relation.ReflTransGen.single (hsymm _ _ hbc)) ih

lemma rtg_addPair_iff {α} {r : α → α → Prop} (i t : α) (j k : α) :
    Relation.ReflTransGen (fun a b => r a b ∨ (a = i ∧ b = t) ∨ (a = t ∧ b = i)) j k ↔
      Relation.ReflTransGen r j k ∨
      (Relation.ReflTransGen r j i ∧ Relation.ReflTransGen r t k) ∨
      (Relation.ReflTransGen r j t ∧ Relation.ReflTransGen r i k) := by
  constructor
  · intro h
    induction h with
    | refl => exact Or.inl Relation.ReflTransGen.refl
    | tail _ hbc ih =>
      rcases hbc with hr | ⟨rfl, rfl⟩ | ⟨rfl, rfl⟩
      · rcases ih with h1 | ⟨h1, h2⟩ | ⟨h1, h2⟩
        · exact Or.inl (h1.tail hr)
        · exact Or.inr (Or.inl ⟨h1, h2.tail hr⟩)
        · exact Or.inr (Or.inr ⟨h1, h2.tail hr⟩)
      · rcases ih with h1 | ⟨h1, _⟩ | ⟨h1, _⟩
        · exact Or.inr (Or.inl ⟨h1, Relation.ReflTransGen.refl⟩)
        · exact Or.inr (Or.inl ⟨h1, Relation.ReflTransGen.refl⟩)
        · exact Or.inl h1
      · rcases ih with h1 | ⟨h1, _⟩ | ⟨h1, _⟩
        · exact Or.inr (Or.inr ⟨h1, Relation.ReflTransGen.refl⟩)
        · exact Or.inl h1
        · exact Or.inr (Or.inr ⟨h1, Relation.ReflTransGen.refl⟩)
  · intro h
    have hmono : ∀ {a b : α}, Relation.ReflTransGen r a b →
        Relation.ReflTransGen
          (fun a b => r a b ∨ (a = i ∧ b = t) ∨ (a = t ∧ b = i)) a b :=
      fun hab => hab.mono (fun a b h' => Or.inl h')
    have hit : Relation.ReflTransGen
        (fun a b => r a b ∨ (a = i ∧ b = t) ∨ (a = t ∧ b = i)) i t :=
      Relation.ReflTransGen.single (Or.inr (Or.inl ⟨rfl, rfl⟩))
    have hti : Relation.ReflTransGen
        (fun a b => r a b ∨ (a = i ∧ b = t) ∨ (a = t ∧ b = i)) t i :=
      Relation.ReflTransGen.single (Or.inr (Or.inr ⟨rfl, rfl⟩))
    rcases h with h1 | ⟨h1, h2⟩ | ⟨h1, h2⟩
    · exact hmono h1
    · exact (hmono h1).trans (hit.trans (hmono h2))
    · exact (hmono h1).trans (hti.trans (hmono h2))

lemma rtg_dropSelfLoop {α} {r : α → α → Prop} (x : α) (j k : α) :
    Relation.ReflTransGen (fun a b => r a b ∧ ¬(a = x ∧ b = x)) j k ↔
      Relation.ReflTransGen r j k := by
  constructor
  · exact Relation.ReflTransGen.mono (fun a b hab => hab.1)
  · intro h
    induction h with
    | refl => exact Relation.ReflTransGen.refl
    | @tail b c _ hbc ih =>
      by_cases hd : b = x ∧ c = x
      · rcases hd with ⟨rfl, rfl⟩
        exact ih
      · exact ih.tail ⟨hbc, hd⟩

lemma cAt_none_of_len_le {s : DdState} {j : ℕ} (h : s.c.length ≤ j) : cAt s j = none := by
  unfold cAt
  exact getD_of_len_le _ h

lemma gAt_subset_range_of_inv {s : DdState} (hsz : sizesOK s) (hcb : cBounded s)
    (hsym : gsymOK s) : ∀ j, s.g.getD j ∅ ⊆ Finset.range s.N := by
  intro j k hk
  rcases (hsym j k).mp hk with h | h
  · exact Finset.mem_range.mpr (hcb j k h)
  · by_cases hkN : k < s.N
    · exact Finset.mem_range.mpr hkN
    · have hnone : cAt s k = none := cAt_none_of_len_le (by rw [hsz.1]; omega)
      rw [hnone] at h
      exact absurd h (by simp)

lemma cAt_addAssignment (s : DdState) (i t : ℕ) (hi : i < s.c.length) (j : ℕ) :
    cAt (addAssignment s i t) j = if j = i then some t else cAt s j := by
  show (addAssignment s i t).c.getD j none = _
  rw [addAssignment_c]
  by_cases hj : j = i
  · subst hj
    rw [getD_set_self _ _ hi, if_pos rfl]
  · rw [getD_set_ne _ _ (fun h => hj h.symm), if_neg hj]
    rfl

lemma cAt_removeAssignment (s : DdState) (i : ℕ) (hi : i < s.c.length) (j : ℕ) :
    cAt (removeAssignment s i) j = if j = i then none else cAt s j := by
  show (removeAssignment s i).c.getD j none = _
  rw [removeAssignment_c]
  by_cases hj : j = i
  · subst hj
    rw [getD_set_self _ _ hi, if_pos rfl]
  · rw [getD_set_ne _ _ (fun h => hj h.symm), if_neg hj]
    rfl

lemma zAt_addAssignment_merge (s : DdState) (i t : ℕ) (hne : zAt s i ≠ zAt s t)
    (hzlen : s.z.length = s.N) {j : ℕ} (hj : j < s.N) :
    zAt (addAssignment s i t) j =
      if zAt s j = max (zAt s i) (zAt s t) then min (zAt s i) (zAt s t)
      else zAt s j := by
  have h := (addAssignment_merge s i t hne).1
  show (addAssignment s i t).z.getD j 0 = _
  rw [h, mixtureMerge_getD _ _ (by omega)]
  rfl

lemma zAt_addAssignment_same (s : DdState) (i t : ℕ) (heq : zAt s i = zAt s t)
    (j : ℕ) : zAt (addAssignment s i t) j = zAt s j := by
  have h := (addAssignment_same s i t heq).1
  show (addAssignment s i t).z.getD j 0 = _
  rw [h]
  rfl

lemma zAt_removeAssignment_split (s : DdState) (i : ℕ) (h : isTableSplit s i = true)
    (hzlen : s.z.length = s.N) {j : ℕ} (hj : j < s.N) :
    zAt (removeAssignment s i) j =
      if j ∈ peopleNextTo (removeAssignment s i).g i then s.pool.headD 0
      else zAt s j := by
  have hz := (removeAssignment_split_true s i h).1
  show (removeAssignment s i).z.getD j 0 = _
  rw [hz, mixtureSplit_getD _ _ _ (by omega), removeAssignment_g]
  rfl

lemma zAt_removeAssignment_nosplit (s : DdState) (i : ℕ)
    (h : isTableSplit s i = false) (j : ℕ) :
    zAt (removeAssignment s i) j = zAt s j := by
  have hz := (removeAssignment_split_false s i h).1
  show (removeAssignment s i).z.getD j 0 = _
  rw [hz]
  rfl

lemma adj_addAssignment (s : DdState) (i t : ℕ) (hi : i < s.g.length)
    (ht : t < s.g.length) (a b : ℕ) :
    Adj (addAssignment s i t).g a b ↔
      Adj s.g a b ∨ (a = i ∧ b = t) ∨ (a = t ∧ b = i) := by
  show b ∈ (addAssignment s i t).g.getD a ∅ ↔ _
  rw [addAssignment_g]
  exact mem_addLinkGraph hi ht a b

lemma adj_removeAssignment_self (s : DdState) (i : ℕ) (h : cVal s i = i) (a b : ℕ) :
    Adj (removeAssignment s i).g a b ↔ Adj s.g a b ∧ ¬(a = i ∧ b = i) := by
  show b ∈ (removeAssignment s i).g.getD a ∅ ↔ _
  rw [removeAssignment_g, h, h]
  exact mem_removeLinkGraph_self a b

lemma adj_removeAssignment_mutual (s : DdState) (i : ℕ) (h1 : cVal s i ≠ i)
    (h2 : cVal s (cVal s i) = i) (a b : ℕ) :
    Adj (removeAssignment s i).g a b ↔ Adj s.g a b := by
  show b ∈ (removeAssignment s i).g.getD a ∅ ↔ _
  rw [removeAssignment_g]
  exact mem_removeLinkGraph_mutual h1 h2 a b

lemma adj_removeAssignment_general (s : DdState) (i : ℕ) (h1 : cVal s i ≠ i)
    (h2 : cVal s (cVal s i) ≠ i) (a b : ℕ) :
    Adj (removeAssignment s i).g a b ↔
      Adj s.g a b ∧ ¬((a = i ∧ b = cVal s i) ∨ (a = cVal s i ∧ b = i)) := by
  show b ∈ (removeAssignment s i).g.getD a ∅ ↔ _
  rw [removeAssignment_g]
  exact mem_removeLinkGraph_general h1 h2 a b

lemma reach_addAssignment (s : DdState) (i t : ℕ) (hi : i < s.g.length)
    (ht : t < s.g.length) (j k : ℕ) :
    Reach (addAssignment s i t).g j k ↔
      (Reach s.g j k ∨ (Reach s.g j i ∧ Reach s.g t k) ∨
        (Reach s.g j t ∧ Reach s.g i k)) := by
  unfold Reach
  rw [rtg_congr (adj_addAssignment s i t hi ht)]
  exact rtg_addPair_iff i t j k

lemma inv_addAssignment (s : DdState) (i t : ℕ) (hi : i < s.N) (ht : t < s.N)
    (hnone : cAt s i = none) (hInv : Inv s) : Inv (addAssignment s i t) := by
  obtain ⟨hsz, hcb, hsym, hpf, hpart⟩ := hInv
  obtain ⟨hcl, hgl, hzl⟩ := hsz
  have hc' := cAt_addAssignment s i t (by omega)
  have hN' : (addAssignment s i t).N = s.N := addAssignment_N s i t
  have hadj := adj_addAssignment s i t (by omega) (by omega)
  have hreach := reach_addAssignment s i t (by omega) (by omega)
  have hsz' : sizesOK (addAssignment s i t) := by
    refine ⟨?_, ?_, ?_⟩
    · rw [addAssignment_c, hN', List.length_set, hcl]
    · rw [addAssignment_g, hN', addLinkGraph_length, hgl]
    · rw [hN']
      by_cases hne : zAt s i = zAt s t
      · rw [(addAssignment_same s i t hne).1, hzl]
      · rw [(addAssignment_merge s i t hne).1, mixtureMerge_length, hzl]
  have hcb' : cBounded (addAssignment s i t) := by
    intro j v hjv
    rw [hc' j] at hjv
    rw [hN']
    by_cases hj : j = i
    · rw [if_pos hj] at hjv
      cases hjv
      exact ht
    · rw [if_neg hj] at hjv
      exact hcb j v hjv
  have hsym' : gsymOK (addAssignment s i t) := by
    intro j k
    have hmem := hadj j k
    have hgs : Adj s.g j k ↔ (cAt s j = some k ∨ cAt s k = some j) := hsym j k
    rw [show (k ∈ gAt (addAssignment s i t) j) = Adj (addAssignment s i t).g j k
      from rfl, hmem, hgs, hc' j, hc' k]
    by_cases hji : j = i
    · subst hji
      by_cases hki : k = j
      · subst hki
        rw [if_pos rfl]
        constructor
        · rintro ((h | h) | ⟨_, h2⟩ | ⟨h1, _⟩)
          · rw [hnone] at h
            exact absurd h (by simp)
          · rw [hnone] at h
            exact absurd h (by simp)
          · exact Or.inl (by rw [h2])
          · exact Or.inl (by rw [h1])
        · rintro (h | h) <;>
            exact Or.inr (Or.inl ⟨rfl, (Option.some_injective _ h).symm⟩)
      · rw [if_pos rfl, if_neg hki]
        constructor
        · rintro ((h | h) | ⟨_, h2⟩ | ⟨h1, h2⟩)
          · rw [hnone] at h
            exact absurd h (by simp)
          · exact Or.inr h
          · exact Or.inl (by rw [h2])
          · exact absurd h2 hki
        · rintro (h | h)
          · exact Or.inr (Or.inl ⟨rfl, (Option.some_injective _ h).symm⟩)
          · exact Or.inl (Or.inr h)
    · rw [if_neg hji]
      by_cases hki : k = i
      · subst hki
        rw [if_pos rfl]
        constructor
        · rintro ((h | h) | ⟨h1, _⟩ | ⟨h1, _⟩)
          · exact Or.inl h
          · rw [hnone] at h
            exact absurd h (by simp)
          · exact absurd h1 hji
          · exact Or.inr (by rw [h1])
        · rintro (h | h)
          · exact Or.inl (Or.inl h)
          · exact Or.inr (Or.inr ⟨(Option.some_injective _ h).symm, rfl⟩)
      · rw [if_neg hki]
        constructor
        · rintro ((h | h) | ⟨h1, _⟩ | ⟨_, h2⟩)
          · exact Or.inl h
          · exact Or.inr h
          · exact absurd h1 hji
          · exact absurd h2 hki
        · rintro (h | h)
          · exact Or.inl (Or.inl h)
          · exact Or.inl (Or.inr h)
  have hpart' : componentsMatchZ (addAssignment s i t) := by
    intro j hj k hk
    rw [hN'] at hj hk
    rw [hreach j k]
    rw [hpart j hj k hk, hpart j hj i hi, hpart t ht k hk, hpart j hj t ht,
      hpart i hi k hk]
    by_cases hne : zAt s i = zAt s t
    · rw [zAt_addAssignment_same s i t hne j, zAt_addAssignment_same s i t hne k]
      constructor
      · rintro (h | ⟨h1, h2⟩ | ⟨h1, h2⟩) <;> omega
      · exact fun h => Or.inl h
    · rw [zAt_addAssignment_merge s i t hne hzl hj,
        zAt_addAssignment_merge s i t hne hzl hk]
      rcases le_total (zAt s i) (zAt s t) with hle | hle
      · rw [max_eq_right hle, min_eq_left hle]
        split_ifs <;> omega
      · rw [max_eq_left hle, min_eq_right hle]
        split_ifs <;> omega
  have hpf' : poolFresh (addAssignment s i t) := by
    by_cases hne : zAt s i = zAt s t
    · obtain ⟨_, hpool, _⟩ := addAssignment_same s i t hne
      constructor
      · rw [hpool]
        exact hpf.1
      · intro p hp j hj
        rw [hpool] at hp
        rw [hN'] at hj
        rw [zAt_addAssignment_same s i t hne j]
        exact hpf.2 p hp j hj
    · obtain ⟨_, hpool, _⟩ := addAssignment_merge s i t hne
      have hbig_notin : max (zAt s i) (zAt s t) ∉ s.pool := by
        intro hmem
        rcases max_choice (zAt s i) (zAt s t) with h | h
        · exact hpf.2 _ hmem i hi h.symm
        · exact hpf.2 _ hmem t ht h.symm
      constructor
      · rw [hpool, List.nodup_append]
        refine ⟨hpf.1, List.nodup_singleton _, ?_⟩
        intro a ha hb
        rw [List.mem_singleton] at hb
        subst hb
        exact hbig_notin ha
      · intro p hp j hj
        rw [hpool] at hp
        rw [hN'] at hj
        rw [zAt_addAssignment_merge s i t hne hzl hj]
        rcases List.mem_append.mp hp with hp' | hp'
        · have hnp := hpf.2 p hp' j hj
          have hsmall : min (zAt s i) (zAt s t) ≠ p := by
            rcases min_choice (zAt s i) (zAt s t) with h | h
            · rw [h]
              exact hpf.2 p hp' i hi
            · rw [h]
              exact hpf.2 p hp' t ht
          split_ifs with hcond
          · exact hsmall
          · exact hnp
        · rw [List.mem_singleton] at hp'
          subst hp'
          split_ifs with hcond
          · rcases le_total (zAt s i) (zAt s t) with h | h
            · rw [min_eq_left h, max_eq_right h]
              omega
            · rw [min_eq_right h, max_eq_left h]
              omega
          · exact hcond
  exact ⟨hsz', hcb', hsym', hpf', hpart'⟩

lemma isTableSplit_self_false (s : DdState) (i : ℕ) (h : cVal s i = i) :
    isTableSplit s i = false := by
  simp only [isTableSplit]
  rw [if_pos h]

lemma isTableSplit_mutual_false (s : DdState) (i : ℕ) (h1 : cVal s i ≠ i)
    (h2 : cVal s (cVal s i) = i) : isTableSplit s i = false := by
  simp only [isTableSplit]
  rw [if_neg h1, if_pos h2]

lemma cVal_lt_of_assigned {s : DdState} (hfa : FullyAssigned s) (hcb : cBounded s) :
    ∀ j < s.N, cVal s j < s.N := by
  intro j hj
  exact hcb j _ (hfa j hj)

lemma cycle_gives_reach (s : DdState) (i : ℕ) (hi : i < s.N)
    (hfa : FullyAssigned s) (hcb : cBounded s) (hsym : gsymOK s)
    (hti : cVal s i ≠ i) (hcc : cVal s (cVal s i) ≠ i)
    (hcyc : ∃ m, 0 < m ∧ (fun j => cVal s j)^[m] i = i) :
    Reach (removeAssignment s i).g (cVal s i) i := by
  classical
  set cv := fun j => cVal s j with hcv_def
  have hcv : ∀ j < s.N, cv j < s.N := cVal_lt_of_assigned hfa hcb
  have horb : ∀ m, cv^[m] i < s.N := orbit_bound hi hcv
  have hn := Nat.find_spec hcyc
  have hmin : ∀ m, m < Nat.find hcyc → ¬(0 < m ∧ cv^[m] i = i) :=
    fun m hm => Nat.find_min hcyc hm
  have hn1 : Nat.find hcyc ≠ 1 := by
    intro h
    have h2 := hn.2
    rw [h] at h2
    simp only [Function.iterate_one] at h2
    exact hti h2
  have hn2 : Nat.find hcyc ≠ 2 := by
    intro h
    have h2 := hn.2
    rw [h, show (2 : ℕ) = 1 + 1 from rfl, Function.iterate_add_apply] at h2
    simp only [Function.iterate_one] at h2
    exact hcc h2
  have hn3 : 3 ≤ Nat.find hcyc := by
    have h0 := hn.1
    omega
  have hedge : ∀ j, 1 ≤ j → j ≤ Nat.find hcyc - 1 →
      Adj (removeAssignment s i).g (cv^[j] i) (cv^[j + 1] i) := by
    intro j hj1 hj2
    have hbase : cAt s (cv^[j] i) = some (cv^[j + 1] i) := by
      have h := hfa (cv^[j] i) (horb j)
      rw [h]
      exact congrArg some (Function.iterate_succ_apply' cv j i).symm
    have hmem : Adj s.g (cv^[j] i) (cv^[j + 1] i) :=
      (hsym _ _).mpr (Or.inl hbase)
    rw [adj_removeAssignment_general s i hti hcc]
    refine ⟨hmem, ?_⟩
    rintro (⟨ha, _⟩ | ⟨ha, hb⟩)
    · exact hmin j (by omega) ⟨by omega, ha⟩
    · rcases (by omega : j + 1 = Nat.find hcyc ∨ j + 1 < Nat.find hcyc) with he | hlt
      · have hstep : cv (cv^[j] i) = cv (cVal s i) := by rw [ha]
        rw [← Function.iterate_succ_apply' cv j i] at hstep
        rw [hb] at hstep
        exact hcc hstep.symm
      · exact hmin (j + 1) hlt ⟨by omega, hb⟩
  have hchain : ∀ d j, j + d = Nat.find hcyc → 1 ≤ j →
      Reach (removeAssignment s i).g (cv^[j] i) i := by
    intro d
    induction d with
    | zero =>
      intro j hj _
      rw [show j = Nat.find hcyc from by omega, hn.2]
      exact Relation.ReflTransGen.refl
    | succ d ih =>
      intro j hj hj1
      exact Relation.ReflTransGen.head (hedge j hj1 (by omega))
        (ih (j + 1) (by omega) (by omega))
  have hfin := hchain (Nat.find hcyc - 1) 1 (by omega) le_rfl
  rw [show cv^[1] i = cVal s i from by simp] at hfin
  exact hfin

lemma no_cycle_disconnect (s : DdState) (i : ℕ) (hi : i < s.N)
    (hfa : FullyAssigned s) (hcb : cBounded s) (hsym : gsymOK s)
    (hcl : s.c.length = s.N) (hgl : s.g.length = s.N)
    (hti : cVal s i ≠ i) (hcc : cVal s (cVal s i) ≠ i)
    (hnocyc : ∀ m, ¬(0 < m ∧ (fun j => cVal s j)^[m] i = i)) :
    ¬Reach (removeAssignment s i).g i (cVal s i) := by
  set cv := fun j => cVal s j with hcv_def
  have hA : ∀ x, Reach (removeAssignment s i).g i x → ∃ m, cv^[m] x = i := by
    intro x hx
    induction hx with
    | refl => exact ⟨0, rfl⟩
    | @tail b y _ hby ih =>
      obtain ⟨m, hm⟩ := ih
      rw [adj_removeAssignment_general s i hti hcc] at hby
      obtain ⟨hadj, hnp⟩ := hby
      have hbN : b < s.N := by
        by_contra hge
        have hempty : s.g.getD b ∅ = (∅ : Finset ℕ) := getD_of_len_le _ (by omega)
        have : y ∈ s.g.getD b ∅ := hadj
        rw [hempty] at this
        exact absurd this (Finset.not_mem_empty y)
      rcases (hsym b y).mp hadj with hcase | hcase
      · by_cases hbi : b = i
        · subst hbi
          have hy : y = cVal s b := by
            have hh := hfa b hi
            rw [hh] at hcase
            exact (Option.some_injective _ hcase).symm
          exact absurd (Or.inl ⟨rfl, hy⟩) hnp
        · have hm1 : 1 ≤ m := by
            rcases Nat.eq_zero_or_pos m with rfl | h
            · simp only [Function.iterate_zero, id] at hm
              exact absurd hm hbi
            · exact h
          have hcvb : cv b = y := by
            have hh := hfa b hbN
            rw [hh] at hcase
            exact Option.some_injective _ hcase
          refine ⟨m - 1, ?_⟩
          rw [show m = (m - 1) + 1 from by omega, Function.iterate_add_apply] at hm
          simp only [Function.iterate_one] at hm
          rw [hcvb] at hm
          exact hm
      · have hyN : y < s.N := by
          by_contra hge
          rw [cAt_none_of_len_le (by omega)] at hcase
          exact Option.noConfusion hcase
        have hcvy : cv y = b := by
          have hh := hfa y hyN
          rw [hh] at hcase
          exact Option.some_injective _ hcase
        refine ⟨m + 1, ?_⟩
        rw [Function.iterate_add_apply cv m 1 y]
        simp only [Function.iterate_one]
        rw [hcvy]
        exact hm
  intro hreach
  obtain ⟨m, hm⟩ := hA (cVal s i) hreach
  rcases Nat.eq_zero_or_pos m with rfl | hpos
  · simp only [Function.iterate_zero, id] at hm
    exact hti hm
  · have hcyc : cv^[m + 1] i = i := by
      rw [Function.iterate_add_apply cv m 1 i]
      simp only [Function.iterate_one]
      exact hm
    exact hnocyc (m + 1) ⟨by omega, hcyc⟩

lemma gsym_removeAssignment (s : DdState) (i : ℕ) (hi : i < s.N)
    (hcl : s.c.length = s.N) (hfa : FullyAssigned s) (hcb : cBounded s)
    (hsym : gsymOK s) : gsymOK (removeAssignment s i) := by
  intro j k
  have hc' := cAt_removeAssignment s i (by omega)
  have hct : cAt s i = some (cVal s i) := hfa i hi
  have htN : cVal s i < s.N := hcb i _ hct
  have hctt : cAt s (cVal s i) = some (cVal s (cVal s i)) := hfa (cVal s i) htN
  rw [show (k ∈ gAt (removeAssignment s i) j) = Adj (removeAssignment s i).g j k
    from rfl, hc' j, hc' k]
  by_cases h1 : cVal s i = i
  · rw [adj_removeAssignment_self s i h1, show Adj s.g j k ↔ _ from hsym j k]
    by_cases hji : j = i
    · subst hji
      rw [if_pos rfl]
      by_cases hki : k = j
      · subst hki
        rw [hct, h1]
        simp
      · rw [if_neg hki, hct, h1]
        constructor
        · rintro ⟨h | h, _⟩
          · exact absurd (Option.some_injective _ h) (fun he => hki he.symm)
          · exact Or.inr h
        · rintro (h | h)
          · exact absurd h (by simp)
          · exact ⟨Or.inr h, fun hc => hki hc.2⟩
    · rw [if_neg hji]
      by_cases hki : k = i
      · subst hki
        rw [if_pos rfl, hct, h1]
        constructor
        · rintro ⟨h | h, _⟩
          · exact Or.inl h
          · exact absurd (Option.some_injective _ h) (fun he => hji he.symm)
        · rintro (h | h)
          · exact ⟨Or.inl h, fun hc => hji hc.1⟩
          · exact absurd h (by simp)
      · rw [if_neg hki]
        constructor
        · rintro ⟨h, _⟩
          exact h
        · intro h
          exact ⟨h, fun hc => hji hc.1⟩
  · by_cases h2 : cVal s (cVal s i) = i
    · rw [adj_removeAssignment_mutual s i h1 h2, show Adj s.g j k ↔ _ from hsym j k]
      by_cases hji : j = i
      · subst hji
        rw [if_pos rfl]
        by_cases hki : k = j
        · subst hki
          rw [hct]
          constructor
          · rintro (h | h) <;>
              exact absurd (Option.some_injective _ h) h1
          · rintro (h | h) <;> exact absurd h (by simp)
        · rw [if_neg hki, hct]
          constructor
          · rintro (h | h)
            · have hk : k = cVal s j := (Option.some_injective _ h).symm
              refine Or.inr ?_
              rw [hk, hctt]
              exact congrArg some h2
            · exact Or.inr h
          · rintro (h | h)
            · exact absurd h (by simp)
            · exact Or.inr h
      · rw [if_neg hji]
        by_cases hki : k = i
        · subst hki
          rw [if_pos rfl, hct]
          constructor
          · rintro (h | h)
            · exact Or.inl h
            · have hj : j = cVal s k := (Option.some_injective _ h).symm
              refine Or.inl ?_
              rw [hj, hctt]
              exact congrArg some h2
          · rintro (h | h)
            · exact Or.inl h
            · exact absurd h (by simp)
        · rw [if_neg hki]
    · rw [adj_removeAssignment_general s i h1 h2, show Adj s.g j k ↔ _ from hsym j k]
      by_cases hji : j = i
      · subst hji
        rw [if_pos rfl]
        by_cases hki : k = j
        · subst hki
          rw [hct]
          constructor
          · rintro ⟨h | h, _⟩ <;>
              exact absurd (Option.some_injective _ h) h1
          · rintro (h | h) <;> exact absurd h (by simp)
        · rw [if_neg hki, hct]
          constructor
          · rintro ⟨h | h, hnp⟩
            · exact absurd (Or.inl ⟨rfl, (Option.some_injective _ h).symm⟩) hnp
            · exact Or.inr h
          · rintro (h | h)
            · exact absurd h (by simp)
            · refine ⟨Or.inr h, ?_⟩
              rintro (⟨_, hk⟩ | ⟨hj', _⟩)
              · rw [hk, hctt] at h
                exact h2 (Option.some_injective _ h)
              · exact h1 hj'.symm
      · rw [if_neg hji]
        by_cases hki : k = i
        · subst hki
          rw [if_pos rfl, hct]
          constructor
          · rintro ⟨h | h, hnp⟩
            · exact Or.inl h
            · exact absurd (Or.inr ⟨(Option.some_injective _ h).symm, rfl⟩) hnp
          · rintro (h | h)
            · refine ⟨Or.inl h, ?_⟩
              rintro (⟨hj', _⟩ | ⟨hj', _⟩)
              · exact hji hj'
              · rw [hj', hctt] at h
                exact h2 (Option.some_injective _ h)
            · exact absurd h (by simp)
        · rw [if_neg hki]
          constructor
          · rintro ⟨h, _⟩
            exact h
          · intro h
            refine ⟨h, ?_⟩
            rintro (⟨hj', _⟩ | ⟨_, hk'⟩)
            · exact hji hj'
            · exact hki hk'

lemma inv_removeAssignment (s : DdState) (i : ℕ) (hi : i < s.N)
    (hfa : FullyAssigned s) (hpool : isTableSplit s i = true → s.pool ≠ [])
    (hInv : Inv s) : Inv (removeAssignment s i) := by
  obtain ⟨hsz, hcb, hsym, hpf, hpart⟩ := hInv
  obtain ⟨hcl, hgl, hzl⟩ := hsz
  have hN' : (removeAssignment s i).N = s.N := removeAssignment_N s i
  have hc' := cAt_removeAssignment s i (by omega)
  have hct : cAt s i = some (cVal s i) := hfa i hi
  have htN : cVal s i < s.N := hcb i _ hct
  have hsym' : gsymOK (removeAssignment s i) :=
    gsym_removeAssignment s i hi hcl hfa hcb hsym
  have hsz' : sizesOK (removeAssignment s i) := by
    refine ⟨?_, ?_, ?_⟩
    · rw [removeAssignment_c, hN', List.length_set, hcl]
    · rw [removeAssignment_g, hN', removeLinkGraph_length, hgl]
    · rw [hN']
      cases hsp : isTableSplit s i
      · rw [(removeAssignment_split_false s i hsp).1, hzl]
      · rw [(removeAssignment_split_true s i hsp).1, mixtureSplit_length, hzl]
  have hcb' : cBounded (removeAssignment s i) := by
    intro j v hjv
    rw [hc' j] at hjv
    rw [hN']
    by_cases hj : j = i
    · rw [if_pos hj] at hjv
      exact Option.noConfusion hjv
    · rw [if_neg hj] at hjv
      exact hcb j v hjv
  have hpf_nosplit : isTableSplit s i = false → poolFresh (removeAssignment s i) := by
    intro hsp
    obtain ⟨hz, hp, _⟩ := removeAssignment_split_false s i hsp
    constructor
    · rw [hp]
      exact hpf.1
    · intro p hpp j hj
      rw [hp] at hpp
      rw [hN'] at hj
      rw [zAt_removeAssignment_nosplit s i hsp j]
      exact hpf.2 p hpp j hj
  by_cases h1 : cVal s i = i
  · -- self link
    have hsp := isTableSplit_self_false s i h1
    have hreach : ∀ j k, Reach (removeAssignment s i).g j k ↔ Reach s.g j k := by
      intro j k
      unfold Reach
      rw [rtg_congr (adj_removeAssignment_self s i h1)]
      exact rtg_dropSelfLoop i j k
    refine ⟨hsz', hcb', hsym', hpf_nosplit hsp, ?_⟩
    intro j hj k hk
    rw [hN'] at hj hk
    rw [hreach j k, zAt_removeAssignment_nosplit s i hsp j,
      zAt_removeAssignment_nosplit s i hsp k]
    exact hpart j hj k hk
  · by_cases h2 : cVal s (cVal s i) = i
    · -- mutual pair
      have hsp := isTableSplit_mutual_false s i h1 h2
      have hreach : ∀ j k, Reach (removeAssignment s i).g j k ↔ Reach s.g j k := by
        intro j k
        unfold Reach
        exact rtg_congr (adj_removeAssignment_mutual s i h1 h2)
      refine ⟨hsz', hcb', hsym', hpf_nosplit hsp, ?_⟩
      intro j hj k hk
      rw [hN'] at hj hk
      rw [hreach j k, zAt_removeAssignment_nosplit s i hsp j,
        zAt_removeAssignment_nosplit s i hsp k]
      exact hpart j hj k hk
    · -- general case
      have hcv : ∀ j < s.N, cVal s j < s.N := cVal_lt_of_assigned hfa hcb
      have hiff := isTableSplit_eq_false_iff s i hi hcv
      have hg'bound : ∀ j, (removeAssignment s i).g.getD j ∅ ⊆ Finset.range s.N := by
        intro j
        rw [removeAssignment_g]
        exact (removeLinkGraph_getD_subset s.g i _ _ j).trans
          (gAt_subset_range_of_inv ⟨hcl, hgl, hzl⟩ hcb hsym j)
      have hg'len : (removeAssignment s i).g.length = s.N := by
        rw [removeAssignment_g, removeLinkGraph_length, hgl]
      have hedge_it : Adj s.g i (cVal s i) := (hsym i _).mpr (Or.inl hct)
      have hedge_ti : Adj s.g (cVal s i) i := (hsym _ i).mpr (Or.inr hct)
      have hdecomp : ∀ a b, Adj s.g a b ↔
          (Adj (removeAssignment s i).g a b ∨ (a = i ∧ b = cVal s i) ∨
            (a = cVal s i ∧ b = i)) := by
        intro a b
        rw [adj_removeAssignment_general s i h1 h2]
        constructor
        · intro h
          by_cases hp : (a = i ∧ b = cVal s i) ∨ (a = cVal s i ∧ b = i)
          · exact Or.inr hp
          · exact Or.inl ⟨h, hp⟩
        · rintro (⟨h, _⟩ | ⟨rfl, rfl⟩ | ⟨rfl, rfl⟩)
          · exact h
          · exact hedge_it
          · exact hedge_ti
      have hreach_decomp : ∀ j k, Reach s.g j k ↔
          (Reach (removeAssignment s i).g j k ∨
            (Reach (removeAssignment s i).g j i ∧
              Reach (removeAssignment s i).g (cVal s i) k) ∨
            (Reach (removeAssignment s i).g j (cVal s i) ∧
              Reach (removeAssignment s i).g i k)) := by
        intro j k
        unfold Reach
        rw [rtg_congr hdecomp]
        exact rtg_addPair_iff i (cVal s i) j k
      have hsymm' : ∀ a b, Adj (removeAssignment s i).g a b →
          Adj (removeAssignment s i).g b a := by
        intro a b hab
        exact (hsym' b a).mpr (Or.symm ((hsym' a b).mp hab))
      have hmono : ∀ j k, Reach (removeAssignment s i).g j k → Reach s.g j k := by
        intro j k h
        refine Relation.ReflTransGen.mono ?_ h
        intro a b hab
        exact ((adj_removeAssignment_general s i h1 h2 a b).mp hab).1
      cases hsp : isTableSplit s i
      · -- no split: a surviving cycle keeps the component connected
        have hcyc : ∃ m, 0 < m ∧ (fun j => cVal s j)^[m] i = i := hiff.mp hsp
        have hconn : Reach (removeAssignment s i).g (cVal s i) i :=
          cycle_gives_reach s i hi hfa hcb hsym h1 h2 hcyc
        have hconn' : Reach (removeAssignment s i).g i (cVal s i) :=
          rtg_symm hsymm' hconn
        have hreach_eq : ∀ j k, Reach (removeAssignment s i).g j k ↔ Reach s.g j k := by
          intro j k
          constructor
          · exact hmono j k
          · intro h
            rcases (hreach_decomp j k).mp h with h' | ⟨ha, hb⟩ | ⟨ha, hb⟩
            · exact h'
            · exact (ha.trans hconn').trans hb
            · exact (ha.trans hconn).trans hb
        refine ⟨hsz', hcb', hsym', hpf_nosplit hsp, ?_⟩
        intro j hj k hk
        rw [hN'] at hj hk
        rw [hreach_eq j k, zAt_removeAssignment_nosplit s i hsp j,
          zAt_removeAssignment_nosplit s i hsp k]
        exact hpart j hj k hk
      · -- split: the component of i is moved to a fresh id
        have hnocyc : ∀ m, ¬(0 < m ∧ (fun j => cVal s j)^[m] i = i) := by
          intro m hm
          have hfalse := hiff.mpr ⟨m, hm.1, hm.2⟩
          rw [hsp] at hfalse
          exact Bool.noConfusion hfalse
        have hdisc : ¬Reach (removeAssignment s i).g i (cVal s i) :=
          no_cycle_disconnect s i hi hfa hcb hsym hcl hgl h1 h2 hnocyc
        have hmemA := mem_peopleNextTo (removeAssignment s i).g s.N i hg'len hi hg'bound
        have hz' : ∀ j, j < s.N → zAt (removeAssignment s i) j =
            if j ∈ peopleNextTo (removeAssignment s i).g i then s.pool.headD 0
            else zAt s j := by
          intro j hj
          exact zAt_removeAssignment_split s i hsp hzl hj
        have hnew_fresh : ∀ j, j < s.N → zAt s j ≠ s.pool.headD 0 := by
          intro j hj
          obtain ⟨a, rest, hpe⟩ := List.exists_cons_of_ne_nil (hpool hsp)
          rw [hpe]
          show zAt s j ≠ a
          refine hpf.2 a ?_ j hj
          rw [hpe]
          exact List.mem_cons_self _ _
        have hpf' : poolFresh (removeAssignment s i) := by
          obtain ⟨hz, hp, _⟩ := removeAssignment_split_true s i hsp
          constructor
          · rw [hp]
            obtain ⟨a, rest, hpe⟩ := List.exists_cons_of_ne_nil (hpool hsp)
            rw [hpe]
            show rest.Nodup
            have hnod := hpf.1
            rw [hpe] at hnod
            exact (List.nodup_cons.mp hnod).2
          · intro p hpp j hj
            rw [hp] at hpp
            rw [hN'] at hj
            rw [hz' j hj]
            obtain ⟨a, rest, hpe⟩ := List.exists_cons_of_ne_nil (hpool hsp)
            have hpp' : p ∈ rest := by
              rw [hpe] at hpp
              exact hpp
            have hp_pool : p ∈ s.pool := by
              rw [hpe]
              exact List.mem_cons_of_mem a hpp'
            split_ifs with hcond
            · rw [hpe]
              show a ≠ p
              have hnod := hpf.1
              rw [hpe] at hnod
              intro he
              subst he
              exact (List.nodup_cons.mp hnod).1 hpp'
            · exact hpf.2 p hp_pool j hj
        refine ⟨hsz', hcb', hsym', hpf', ?_⟩
        intro j hj k hk
        rw [hN'] at hj hk
        rw [hz' j hj, hz' k hk]
        by_cases hjA : j ∈ peopleNextTo (removeAssignment s i).g i <;>
          by_cases hkA : k ∈ peopleNextTo (removeAssignment s i).g i
        · rw [if_pos hjA, if_pos hkA]
          refine iff_of_true ?_ rfl
          exact (rtg_symm hsymm' ((hmemA j).mp hjA)).trans ((hmemA k).mp hkA)
        · rw [if_pos hjA, if_neg hkA]
          refine iff_of_false ?_ ?_
          · intro hjk
            exact hkA ((hmemA k).mpr (((hmemA j).mp hjA).trans hjk))
          · intro he
            exact hnew_fresh k hk he.symm
        · rw [if_neg hjA, if_pos hkA]
          refine iff_of_false ?_ ?_
          · intro hjk
            exact hjA ((hmemA j).mpr (((hmemA k).mp hkA).trans (rtg_symm hsymm' hjk)))
          · intro he
            exact hnew_fresh j hj he
        · rw [if_neg hjA, if_neg hkA]
          constructor
          · intro h
            rw [← hpart j hj k hk]
            exact hmono j k h
          · intro h
            rcases (hreach_decomp j k).mp ((hpart j hj k hk).mpr h) with
              h' | ⟨ha, _⟩ | ⟨_, hb⟩
            · exact h'
            · exact absurd ((hmemA j).mpr (rtg_symm hsymm' ha)) hjA
            · exact absurd ((hmemA k).mpr hb) hkA

lemma cBounded_of_cVal_lt {s : DdState} (hc : s.c.length = s.N)
    (h : ∀ j < s.N, cVal s j < s.N) : cBounded s := by
  intro j v hjv
  by_cases hj : j < s.N
  · have hv : cVal s j = v := by
      unfold cVal
      rw [hjv]
      rfl
    rw [← hv]
    exact h j hj
  · rw [cAt_none_of_len_le (by omega)] at hjv
    exact Option.noConfusion hjv

lemma gsymOK_of_forall_lt {s : DdState} (hc : s.c.length = s.N)
    (hg : s.g.length = s.N) (hcb : cBounded s)
    (hgb : ∀ j < s.N, gAt s j ⊆ Finset.range s.N)
    (h : ∀ j < s.N, ∀ k < s.N,
      (k ∈ gAt s j ↔ (cAt s j = some k ∨ cAt s k = some j))) :
    gsymOK s := by
  intro j k
  by_cases hj : j < s.N
  · by_cases hk : k < s.N
    · exact h j hj k hk
    · constructor
      · intro hm
        exact absurd (Finset.mem_range.mp (hgb j hj hm)) hk
      · rintro (hm | hm)
        · exact absurd (hcb j k hm) hk
        · rw [cAt_none_of_len_le (by omega)] at hm
          exact Option.noConfusion hm
  · constructor
    · intro hm
      have hempty : gAt s j = ∅ := by
        unfold gAt
        exact getD_of_len_le _ (by omega)
      rw [hempty] at hm
      exact absurd hm (Finset.not_mem_empty k)
    · rintro (hm | hm)
      · rw [cAt_none_of_len_le (by omega)] at hm
        exact Option.noConfusion hm
      · exact absurd (hcb k j hm) hj

lemma inv_exF : Inv exF := by
  refine ⟨⟨rfl, rfl, rfl⟩, cBounded_of_cVal_lt rfl (by decide), ?_, ⟨by decide, by decide⟩, ?_⟩
  · exact gsymOK_of_forall_lt rfl rfl (cBounded_of_cVal_lt rfl (by decide))
      (by decide) (by decide)
  · intro j hj k hk
    have hj0 : j = 0 := by
      have : exF.N = 1 := rfl
      omega
    have hk0 : k = 0 := by
      have : exF.N = 1 := rfl
      omega
    subst hj0
    subst hk0
    exact iff_of_true Relation.ReflTransGen.refl rfl

lemma inv_exC : Inv exC := by
  refine ⟨⟨rfl, rfl, rfl⟩, cBounded_of_cVal_lt rfl (by decide), ?_, ⟨by decide, by decide⟩, ?_⟩
  · exact gsymOK_of_forall_lt rfl rfl (cBounded_of_cVal_lt rfl (by decide))
      (by decide) (by decide)
  · intro j hj k hk
    have hj0 : j = 0 := by
      have : exC.N = 1 := rfl
      omega
    have hk0 : k = 0 := by
      have : exC.N = 1 := rfl
      omega
    subst hj0
    subst hk0
    exact iff_of_true Relation.ReflTransGen.refl rfl

/-! ### Claim C1: connected components of `g` match the `z` partition -/

/-- C1: after each complete `_add_assignment` or `_remove_assignment` call
(the only link mutations), the connected components of the undirected link
graph equal the partition induced by the mixture's cluster-id array `z`
(`componentsMatchZ`), assuming the external mixture's `merge`/`split`/
`new_vector` operations meet their spec contracts (modelled by
`mixtureMerge`/`mixtureSplit`).  The invariant `Inv` carries the partition
property together with the inductively needed well-formedness (sizes,
bounds, `g` = symmetrization of `c`, pool freshness); `_add_assignment` is
invoked on a state where `i`'s link was removed beforehand, and
`_remove_assignment` on a fully assigned state with a non-exhausted pool. -/
theorem link_graph_components_match_z (s : DdState) (i t : ℕ) :
    (i < s.N → t < s.N → cAt s i = none → Inv s →
      Inv (addAssignment s i t) ∧ componentsMatchZ (addAssignment s i t)) ∧
    (i < s.N → FullyAssigned s → (isTableSplit s i = true → s.pool ≠ []) →
      Inv s →
      Inv (removeAssignment s i) ∧ componentsMatchZ (removeAssignment s i)) := by
  constructor
  · intro hi ht hnone hInv
    have h := inv_addAssignment s i t hi ht hnone hInv
    exact ⟨h, h.2.2.2.2⟩
  · intro hi hfa hpool hInv
    have h := inv_removeAssignment s i hi hfa hpool hInv
    exact ⟨h, h.2.2.2.2⟩

/-- Witness for C1: a link addition at `exF` (unassigned single customer)
and a self-link removal at `exC` both preserve the invariant and the
component/partition correspondence. -/
theorem link_graph_components_match_z_witness :
    ((0 < exF.N ∧ cAt exF 0 = none ∧ Inv exF) ∧
      Inv (addAssignment exF 0 0) ∧ componentsMatchZ (addAssignment exF 0 0)) ∧
    ((0 < exC.N ∧ FullyAssigned exC ∧ Inv exC) ∧
      Inv (removeAssignment exC 0) ∧ componentsMatchZ (removeAssignment exC 0)) := by
  have hfa : FullyAssigned exC := by
    unfold FullyAssigned
    decide
  have h1 := (link_graph_components_match_z exF 0 0).1 (by decide) (by decide) rfl inv_exF
  have h2 := (link_graph_components_match_z exC 0 0).2 (by decide) hfa (by decide) inv_exC
  exact ⟨⟨⟨by decide, rfl, inv_exF⟩, h1⟩, ⟨⟨by decide, hfa, inv_exC⟩, h2⟩⟩

end DdCrp
